import Mathlib

/-!
Verification of the postcard deserializer (src/de.rs) against its
natural-language specification.

The development shallowly embeds the byte-oriented deserialization engine:
the input cursor is a `List Nat` of byte values, and every operation returns
an `Except Error α` result paired with the cursor left behind by the call
(the Rust code mutates `self.input`; errors leave the partially-advanced
cursor in place, which the pair captures).

Parts of the repository that the claims depend on but that are not among the
provided sources (the varint encoder of `varint.rs`, the serializer of
`ser.rs`, and the maximum varint width) are modelled from the spec and marked
as such in their doc comments.  `SerdeDeCustom` stands for the errors the
external serde framework itself raises (e.g. a derived visitor reporting
`invalid_length` or `unknown_variant`); the code surfaces those unchanged.
-/

namespace Postcard

/-- The error taxonomy used by src/de.rs (`crate::error::Error`).
`SerdeDeCustom` is the catch-all for errors produced by the external value
model framework (serde) rather than by the engine itself. -/
inductive Error where
  | DeserializeUnexpectedEnd
  | DeserializeBadVarint
  | DeserializeBadBool
  | DeserializeBadChar
  | DeserializeBadUtf8
  | DeserializeBadOption
  | DeserializeBadEnum
  | DeserializeBadEncoding
  | WontImplement
  | NotYetImplemented
  | SerdeDeCustom
deriving DecidableEq

/-- The statically requested value shapes of the serde data model that the
deserializer dispatches on (one constructor per `deserialize_*` entry point
exercised by the claims; field/variant names are never transmitted, so only
arities and payload shapes are kept). -/
inductive Shape where
  | bool
  | u8
  | u16
  | u32
  | u64
  | str
  | bytes
  | option (s : Shape)
  | unit
  | unitStruct
  | newtypeStruct (s : Shape)
  | seq (s : Shape)
  | tuple (ss : List Shape)
  | tupleStruct (ss : List Shape)
  | struct (ss : List Shape)
  | enum (variants : List Shape)

/-- Decoded values (the reconstruction the framework's visitor builds).
Strings and byte buffers are represented by the exact byte region of the
input they borrow. -/
inductive Value where
  | bool (b : Bool)
  | uint (n : Nat)
  | str (bs : List Nat)
  | bytes (bs : List Nat)
  | none
  | some (v : Value)
  | unit
  | seq (vs : List Value)
  | newtype (v : Value)
  | enum (ord : Nat) (payload : Value)

/-- `Deserializer::try_take_n` (src/de.rs lines 80-88): split off the first
`ct` bytes, or fail with `DeserializeUnexpectedEnd` leaving the cursor
untouched. -/
def try_take_n (ct : Nat) (input : List Nat) :
    Except Error (List Nat) × List Nat :=
  if ct ≤ input.length then (.ok (input.take ct), input.drop ct)
  else (.error .DeserializeUnexpectedEnd, input)

/-- Modelled from the spec: `VarintUsize::varint_usize_max()` (varint.rs is
not among the provided sources).  §4.1: the maximum number of varint bytes
implied by the maximum supported width `W`; for the 64-bit native word this
is ten bytes. -/
def varint_usize_max : Nat := 10

/-- The accumulation loop of `try_take_varint` (src/de.rs lines 99-103):
fold over the taken bytes in reverse, shifting the 64-bit accumulator left
by 7 and or-ing in the low 7 bits of each byte. -/
def varintOut (a : List Nat) : Nat :=
  a.reverse.foldl
    (fun out b => (out <<< 7 % 18446744073709551616) ||| (b &&& 127)) 0

/-- The scan loop of `try_take_varint` (src/de.rs lines 94-106): starting at
index `i` with `fuel` iterations left (`fuel = varint_usize_max - i`), look
for the first byte with the high bit clear; a missing byte is
`DeserializeUnexpectedEnd`, running out of iterations is
`DeserializeBadVarint`; on success split the cursor after the terminator and
reassemble the value. -/
def try_take_varint_go (input : List Nat) : Nat → Nat → Except Error Nat × List Nat
  | _, 0 => (.error .DeserializeBadVarint, input)
  | i, fuel + 1 =>
    match input.get? i with
    | Option.none => (.error .DeserializeUnexpectedEnd, input)
    | Option.some val =>
      if val &&& 128 == 0 then
        (.ok (varintOut (input.take (i + 1))), input.drop (i + 1))
      else
        try_take_varint_go input (i + 1) fuel

/-- `Deserializer::try_take_varint` (src/de.rs lines 92-109). -/
def try_take_varint (input : List Nat) : Except Error Nat × List Nat :=
  try_take_varint_go input 0 varint_usize_max

/-- `deserialize_any` (src/de.rs lines 143-149): unconditionally
`Error::WontImplement`, consuming nothing. -/
def deserialize_any (input : List Nat) : Except Error Value × List Nat :=
  (.error .WontImplement, input)

/-- `deserialize_identifier` (src/de.rs lines 466-472): unconditionally
`Error::WontImplement`, consuming nothing. -/
def deserialize_identifier (input : List Nat) : Except Error Value × List Nat :=
  (.error .WontImplement, input)

/-- `deserialize_ignored_any` (src/de.rs lines 485-491): unconditionally
`Error::WontImplement`, consuming nothing. -/
def deserialize_ignored_any (input : List Nat) : Except Error Value × List Nat :=
  (.error .WontImplement, input)

/-- A UTF-8 continuation byte (model of the range `0x80..=0xBF`). -/
def contByte (b : Nat) : Bool := decide (128 ≤ b) && decide (b ≤ 191)

/-- Model of the validity check done by `core::str::from_utf8` (external
standard library): standard UTF-8 well-formedness of a byte sequence,
rejecting overlong forms, surrogates and code points above `0x10FFFF`. -/
def validUtf8 : List Nat → Bool
  | [] => true
  | b :: rest =>
    if b ≤ 127 then validUtf8 rest
    else if 194 ≤ b && b ≤ 223 then
      match rest with
      | c1 :: r => contByte c1 && validUtf8 r
      | [] => false
    else if 224 ≤ b && b ≤ 239 then
      match rest with
      | c1 :: c2 :: r =>
        (if b == 224 then decide (160 ≤ c1) && decide (c1 ≤ 191)
         else if b == 237 then decide (128 ≤ c1) && decide (c1 ≤ 159)
         else contByte c1) && contByte c2 && validUtf8 r
      | _ => false
    else if 240 ≤ b && b ≤ 244 then
      match rest with
      | c1 :: c2 :: c3 :: r =>
        (if b == 240 then decide (144 ≤ c1) && decide (c1 ≤ 191)
         else if b == 244 then decide (128 ≤ c1) && decide (c1 ≤ 143)
         else contByte c1) && contByte c2 && contByte c3 && validUtf8 r
      | _ => false
    else false

/-- Modelled from the spec: §4.1 varint encoding (`VarintUsize::to_buf` of
varint.rs is not among the provided sources): little-endian 7-bit groups,
high bit set on every byte except the last. -/
def varintEncode (n : Nat) : List Nat :=
  if n < 128 then [n] else (n % 128 + 128) :: varintEncode (n / 128)
termination_by n
decreasing_by
  exact Nat.div_lt_self (by omega) (by omega)

/-- The spec-side reading of a varint byte sequence: the sum of the 7-bit
groups, least-significant group first (§4.1). -/
def varintSum : List Nat → Nat
  | [] => 0
  | b :: bs => (b &&& 127) + 128 * varintSum bs

/-- A non-minimal varint encoding of `n` with `pad` extra zero-valued
high-order 7-bit groups appended: the former final byte gets its
continuation bit set, `pad - 1` bytes `0x80` follow, and a final `0x00`
terminates. `padVarint n 0` is the minimal encoding. -/
def padVarint (n pad : Nat) : List Nat :=
  match pad with
  | 0 => varintEncode n
  | p + 1 => (varintEncode n).map (fun b => b ||| 128) ++ List.replicate p 128 ++ [0]

/-- Little-endian byte decomposition, `w` bytes (the encoding of the
fixed-width unsigned integers, spec §4.2). -/
def leBytes : Nat → Nat → List Nat
  | 0, _ => []
  | w + 1, n => n % 256 :: leBytes w (n / 256)

/-- Little-endian byte recomposition (`uNN::from_le_bytes` in src/de.rs). -/
def fromLE : List Nat → Nat
  | [] => 0
  | b :: bs => b + 256 * fromLE bs

mutual

/-- Which values fit a shape, together with the representability bounds the
Rust types impose (byte values below 256, widths of the fixed integers,
`usize` lengths below 2^64, `u32` enum ordinals naming an existing
variant, UTF-8 validity of string payloads). -/
def wf : Shape → Value → Bool
  | .bool, v =>
    match v with
    | .bool _ => true
    | _ => false
  | .u8, v =>
    match v with
    | .uint n => decide (n < 256)
    | _ => false
  | .u16, v =>
    match v with
    | .uint n => decide (n < 65536)
    | _ => false
  | .u32, v =>
    match v with
    | .uint n => decide (n < 4294967296)
    | _ => false
  | .u64, v =>
    match v with
    | .uint n => decide (n < 18446744073709551616)
    | _ => false
  | .str, v =>
    match v with
    | .str bs =>
      decide (bs.length < 18446744073709551616) &&
        bs.all (fun b => decide (b < 256)) && validUtf8 bs
    | _ => false
  | .bytes, v =>
    match v with
    | .bytes bs =>
      decide (bs.length < 18446744073709551616) &&
        bs.all (fun b => decide (b < 256))
    | _ => false
  | .option s, v =>
    match v with
    | .none => true
    | .some v0 => wf s v0
    | _ => false
  | .unit, v =>
    match v with
    | .unit => true
    | _ => false
  | .unitStruct, v =>
    match v with
    | .unit => true
    | _ => false
  | .newtypeStruct s, v =>
    match v with
    | .newtype v0 => wf s v0
    | _ => false
  | .seq s, v =>
    match v with
    | .seq vs => decide (vs.length < 18446744073709551616) && wfList s vs
    | _ => false
  | .tuple ss, v =>
    match v with
    | .seq vs => wfFields ss vs
    | _ => false
  | .tupleStruct ss, v =>
    match v with
    | .seq vs => wfFields ss vs
    | _ => false
  | .struct ss, v =>
    match v with
    | .seq vs => wfFields ss vs
    | _ => false
  | .enum vars, v =>
    match v with
    | .enum ord pv =>
      decide (ord < 4294967296) &&
        (if hlt : ord < vars.length then wf (vars.get ⟨ord, hlt⟩) pv else false)
    | _ => false
termination_by s _ => (sizeOf s, 0)
decreasing_by
  all_goals simp_wf
  all_goals try omega
  · have := List.sizeOf_lt_of_mem (List.getElem_mem hlt)
    omega

/-- Pointwise well-formedness of the fields of a tuple / struct shape. -/
def wfFields : List Shape → List Value → Bool
  | [], [] => true
  | s :: ss, v :: vs => wf s v && wfFields ss vs
  | _, _ => false
termination_by ss _ => (sizeOf ss, 0)
decreasing_by
  all_goals simp_wf <;> omega

/-- Well-formedness of all elements of a sequence. -/
def wfList : Shape → List Value → Bool
  | _, [] => true
  | s, v :: vs => wf s v && wfList s vs
termination_by s vs => (sizeOf s, sizeOf vs)
decreasing_by
  all_goals simp_wf <;> omega

end

mutual

/-- No tuple-struct shape occurs anywhere inside the shape. -/
def noTupleStruct : Shape → Bool
  | .bool => true
  | .u8 => true
  | .u16 => true
  | .u32 => true
  | .u64 => true
  | .str => true
  | .bytes => true
  | .option s => noTupleStruct s
  | .unit => true
  | .unitStruct => true
  | .newtypeStruct s => noTupleStruct s
  | .seq s => noTupleStruct s
  | .tuple ss => noTupleStructList ss
  | .tupleStruct _ => false
  | .struct ss => noTupleStructList ss
  | .enum vars => noTupleStructList vars
termination_by s => sizeOf s

/-- `noTupleStruct` for every member of a shape list. -/
def noTupleStructList : List Shape → Bool
  | [] => true
  | s :: ss => noTupleStruct s && noTupleStructList ss
termination_by ss => sizeOf ss

end

mutual

/-- Modelled from the spec: the serializer's per-kind encoding rules
(§4.3; ser.rs is not among the provided sources).  Booleans are one byte 0
or 1; fixed-width integers are little-endian with no prefix; strings and
byte buffers are varint-length-prefixed; options are a 0/1 discriminant byte
followed by the payload if present; unit kinds are zero bytes; newtype
structs are the bare payload; sequences are a varint element count followed
by the concatenated elements; tuples, tuple structs and structs are the
plain concatenation of their fields (no count, no tag); enums are the
varint variant ordinal followed by that variant's payload. -/
def encode : Shape → Value → List Nat
  | .bool, v =>
    match v with
    | .bool b => [if b then 1 else 0]
    | _ => []
  | .u8, v =>
    match v with
    | .uint n => leBytes 1 n
    | _ => []
  | .u16, v =>
    match v with
    | .uint n => leBytes 2 n
    | _ => []
  | .u32, v =>
    match v with
    | .uint n => leBytes 4 n
    | _ => []
  | .u64, v =>
    match v with
    | .uint n => leBytes 8 n
    | _ => []
  | .str, v =>
    match v with
    | .str bs => varintEncode bs.length ++ bs
    | _ => []
  | .bytes, v =>
    match v with
    | .bytes bs => varintEncode bs.length ++ bs
    | _ => []
  | .option s, v =>
    match v with
    | .none => [0]
    | .some v0 => 1 :: encode s v0
    | _ => []
  | .unit, _ => []
  | .unitStruct, _ => []
  | .newtypeStruct s, v =>
    match v with
    | .newtype v0 => encode s v0
    | _ => []
  | .seq s, v =>
    match v with
    | .seq vs => varintEncode vs.length ++ encodeList s vs
    | _ => []
  | .tuple ss, v =>
    match v with
    | .seq vs => encodeFields ss vs
    | _ => []
  | .tupleStruct ss, v =>
    match v with
    | .seq vs => encodeFields ss vs
    | _ => []
  | .struct ss, v =>
    match v with
    | .seq vs => encodeFields ss vs
    | _ => []
  | .enum vars, v =>
    match v with
    | .enum ord pv =>
      if hlt : ord < vars.length then
        varintEncode ord ++ encode (vars.get ⟨ord, hlt⟩) pv
      else []
    | _ => []
termination_by s _ => (sizeOf s, 0)
decreasing_by
  all_goals simp_wf
  all_goals try omega
  · have := List.sizeOf_lt_of_mem (List.getElem_mem hlt)
    omega

/-- Concatenation of the field encodings, in declared order (§4.3). -/
def encodeFields : List Shape → List Value → List Nat
  | [], _ => []
  | _ :: _, [] => []
  | s :: ss, v :: vs => encode s v ++ encodeFields ss vs
termination_by ss _ => (sizeOf ss, 0)
decreasing_by
  all_goals simp_wf <;> omega

/-- Concatenation of the element encodings of a sequence (§4.3). -/
def encodeList : Shape → List Value → List Nat
  | _, [] => []
  | s, v :: vs => encode s v ++ encodeList s vs
termination_by s vs => (sizeOf s, sizeOf vs)
decreasing_by
  all_goals simp_wf <;> omega

end

/-- Decode `n` elements with the element decoder `dec`, threading the
cursor (the element-by-element pull loop a sequence visitor performs until
the access object answers `None`). -/
def decodeMany (dec : List Nat → Except Error Value × List Nat) :
    Nat → List Nat → Except Error (List Value) × List Nat
  | 0, input => (.ok [], input)
  | n + 1, input =>
    match dec input with
    | (.ok v, rest) =>
      match decodeMany dec n rest with
      | (.ok vs, rest2) => (.ok (v :: vs), rest2)
      | (.error e, rest2) => (.error e, rest2)
    | (.error e, rest) => (.error e, rest)

/-- The first byte of a taken slice (`bs[0]` on the result of
`try_take_n(1)`, which always has exactly one byte). -/
def byte0 (bs : List Nat) : Nat := bs.headD 0

/-- `EnumAccess::variant_seed` (src/de.rs lines 522-529): read the variant
ordinal as a varint; an ordinal above `0xFFFF_FFFF` is
`DeserializeBadEnum`; otherwise the ordinal is truncated to `u32` (a no-op
under the guard) and handed on. -/
def variant_seed (input : List Nat) : Except Error Nat × List Nat :=
  match try_take_varint input with
  | (.ok n, rest) =>
    if 4294967295 < n then (.error .DeserializeBadEnum, rest)
    else (.ok (n % 4294967296), rest)
  | (.error e, rest) => (.error e, rest)

mutual

/-- The deserializer engine of src/de.rs, one case per requested shape,
composed with the reconstruction behaviour the external framework's derived
visitors contribute (pulling exactly the static arity for tuples and
structs, pulling until `None` for sequences, ordinal dispatch for enums).
Note the faithful asymmetry: `deserialize_tuple` and `deserialize_struct`
(src/de.rs lines 386-394 and 438-448) use the statically supplied arity,
while `deserialize_tuple_struct` (lines 397-407) delegates to
`deserialize_seq` and therefore reads a varint element count from the
stream. -/
def decode : Shape → List Nat → Except Error Value × List Nat
  | .bool, input =>
    match try_take_n 1 input with
    | (.ok bs, rest) =>
      match byte0 bs with
      | 0 => (.ok (.bool false), rest)
      | 1 => (.ok (.bool true), rest)
      | _ + 2 => (.error .DeserializeBadBool, rest)
    | (.error e, rest) => (.error e, rest)
  | .u8, input =>
    match try_take_n 1 input with
    | (.ok bs, rest) => (.ok (.uint (fromLE bs)), rest)
    | (.error e, rest) => (.error e, rest)
  | .u16, input =>
    match try_take_n 2 input with
    | (.ok bs, rest) => (.ok (.uint (fromLE bs)), rest)
    | (.error e, rest) => (.error e, rest)
  | .u32, input =>
    match try_take_n 4 input with
    | (.ok bs, rest) => (.ok (.uint (fromLE bs)), rest)
    | (.error e, rest) => (.error e, rest)
  | .u64, input =>
    match try_take_n 8 input with
    | (.ok bs, rest) => (.ok (.uint (fromLE bs)), rest)
    | (.error e, rest) => (.error e, rest)
  | .str, input =>
    match try_take_varint input with
    | (.ok sz, rest) =>
      match try_take_n sz rest with
      | (.ok bs, rest2) =>
        if validUtf8 bs then (.ok (.str bs), rest2)
        else (.error .DeserializeBadUtf8, rest2)
      | (.error e, rest2) => (.error e, rest2)
    | (.error e, rest) => (.error e, rest)
  | .bytes, input =>
    match try_take_varint input with
    | (.ok sz, rest) =>
      match try_take_n sz rest with
      | (.ok bs, rest2) => (.ok (.bytes bs), rest2)
      | (.error e, rest2) => (.error e, rest2)
    | (.error e, rest) => (.error e, rest)
  | .option s, input =>
    match try_take_n 1 input with
    | (.ok bs, rest) =>
      match byte0 bs with
      | 0 => (.ok .none, rest)
      | 1 =>
        match decode s rest with
        | (.ok v, rest2) => (.ok (.some v), rest2)
        | (.error e, rest2) => (.error e, rest2)
      | _ + 2 => (.error .DeserializeBadOption, rest)
    | (.error e, rest) => (.error e, rest)
  | .unit, input => (.ok .unit, input)
  | .unitStruct, input => (.ok .unit, input)
  | .newtypeStruct s, input =>
    match decode s input with
    | (.ok v, rest) => (.ok (.newtype v), rest)
    | (.error e, rest) => (.error e, rest)
  | .seq s, input =>
    match try_take_varint input with
    | (.ok len, rest) =>
      match decodeMany (fun b => decode s b) len rest with
      | (.ok vs, rest2) => (.ok (.seq vs), rest2)
      | (.error e, rest2) => (.error e, rest2)
    | (.error e, rest) => (.error e, rest)
  | .tuple ss, input =>
    match decodeFields ss input with
    | (.ok vs, rest) => (.ok (.seq vs), rest)
    | (.error e, rest) => (.error e, rest)
  | .tupleStruct ss, input =>
    match try_take_varint input with
    | (.ok len, rest) =>
      match decodeFieldsLimited ss len rest with
      | (.ok vs, rest2) => (.ok (.seq vs), rest2)
      | (.error e, rest2) => (.error e, rest2)
    | (.error e, rest) => (.error e, rest)
  | .struct ss, input =>
    match decodeFields ss input with
    | (.ok vs, rest) => (.ok (.seq vs), rest)
    | (.error e, rest) => (.error e, rest)
  | .enum vars, input =>
    match variant_seed input with
    | (.ok ord, rest) =>
      if hlt : ord < vars.length then
        match decode (vars.get ⟨ord, hlt⟩) rest with
        | (.ok v, rest2) => (.ok (.enum ord v), rest2)
        | (.error e, rest2) => (.error e, rest2)
      else (.error .SerdeDeCustom, rest)
    | (.error e, rest) => (.error e, rest)
termination_by s _ => (sizeOf s, 0)
decreasing_by
  all_goals simp_wf
  all_goals try omega
  · have := List.sizeOf_lt_of_mem (List.getElem_mem hlt)
    omega

/-- Decoding the fields of a tuple or struct: the derived visitor pulls
exactly one element per declared field, and `deserialize_tuple` hands the
access object the static arity, so every pull is granted. -/
def decodeFields : List Shape → List Nat → Except Error (List Value) × List Nat
  | [], input => (.ok [], input)
  | s :: ss, input =>
    match decode s input with
    | (.ok v, rest) =>
      match decodeFields ss rest with
      | (.ok vs, rest2) => (.ok (v :: vs), rest2)
      | (.error e, rest2) => (.error e, rest2)
    | (.error e, rest) => (.error e, rest)
termination_by ss _ => (sizeOf ss, 0)
decreasing_by
  all_goals simp_wf <;> omega

/-- Decoding the fields of a tuple struct after `deserialize_tuple_struct`
has rerouted through `deserialize_seq`: the access object holds the varint
count read from the stream, the derived visitor still pulls one element per
declared field; a pull beyond the count is answered `None`, which the
visitor turns into a framework `invalid_length` error (`SerdeDeCustom`),
and counts beyond the arity are simply never consumed. -/
def decodeFieldsLimited :
    List Shape → Nat → List Nat → Except Error (List Value) × List Nat
  | [], _, input => (.ok [], input)
  | _ :: _, 0, input => (.error .SerdeDeCustom, input)
  | s :: ss, n + 1, input =>
    match decode s input with
    | (.ok v, rest) =>
      match decodeFieldsLimited ss n rest with
      | (.ok vs, rest2) => (.ok (v :: vs), rest2)
      | (.error e, rest2) => (.error e, rest2)
    | (.error e, rest) => (.error e, rest)
termination_by ss _ _ => (sizeOf ss, 0)
decreasing_by
  all_goals simp_wf <;> omega

end

/-- `take_from_bytes` (src/de.rs lines 67-74): deserialize a value and
return it together with the unconsumed remainder of the input. -/
def take_from_bytes (s : Shape) (input : List Nat) :
    Except Error (Value × List Nat) :=
  match decode s input with
  | (.ok v, rest) => .ok (v, rest)
  | (.error e, _) => .error e

/-- `from_bytes` (src/de.rs lines 53-60): deserialize a value, silently
discarding any unconsumed trailing bytes. -/
def from_bytes (s : Shape) (input : List Nat) : Except Error Value :=
  match decode s input with
  | (.ok v, _) => .ok v
  | (.error e, _) => .error e

/-- `SeqAccess::next_element_seed` (src/de.rs lines 120-130): the access
state is the declared count still owed plus the cursor; a request with a
positive count decrements it and runs the element decoder, a request at
count zero answers `None` without touching the cursor. -/
def next_element_seed (dec : List Nat → Except Error Value × List Nat) :
    Nat × List Nat → Except Error (Option Value) × (Nat × List Nat)
  | (len + 1, input) =>
    match dec input with
    | (.ok v, rest) => (.ok (Option.some v), (len, rest))
    | (.error e, rest) => (.error e, (len, rest))
  | (0, input) => (.ok Option.none, (0, input))

/-- `k` successive element requests against a `SeqAccess`, collecting the
answers. -/
def seqRequests (dec : List Nat → Except Error Value × List Nat) :
    Nat → Nat × List Nat → Except Error (List (Option Value)) × (Nat × List Nat)
  | 0, st => (.ok [], st)
  | k + 1, st =>
    match next_element_seed dec st with
    | (.ok ov, st2) =>
      match seqRequests dec k st2 with
      | (.ok ovs, st3) => (.ok (ov :: ovs), st3)
      | (.error e, st3) => (.error e, st3)
    | (.error e, st2) => (.error e, st2)

/-- `a` is a suffix of `b` (the cursor only ever moves forward). -/
def SuffixOf (a b : List Nat) : Prop := ∃ t, t ++ a = b

/-! Bitwise bridges: the code tests and masks bytes with `&&& 128` and
`&&& 127`; these lemmas turn those into plain division/remainder
arithmetic. -/

theorem and127 (x : Nat) : x &&& 127 = x % 128 := by
  simpa using Nat.and_pow_two_sub_one_eq_mod x 7

theorem and128 (x : Nat) : x &&& 128 = x / 128 % 2 * 128 := by
  have h := Nat.and_two_pow x 7
  rw [Nat.testBit_to_div_mod] at h
  norm_num at h ⊢
  rcases Nat.mod_two_eq_zero_or_one (x / 128) with h2 | h2 <;>
    simp [h2] at h ⊢ <;> omega

theorem lor_mul_add (a r : Nat) (h : r < 128) : 128 * a ||| r = 128 * a + r := by
  have h7 : r < 2 ^ 7 := by omega
  have := Nat.mul_add_lt_is_or h7 a
  norm_num at this
  omega

theorem and128_high (c : Nat) (h1 : 128 ≤ c) (h2 : c < 256) : c &&& 128 = 128 := by
  rw [and128]
  have : c / 128 = 1 := by omega
  omega

theorem and128_low (c : Nat) (h : c < 128) : c &&& 128 = 0 := by
  rw [and128]
  have : c / 128 = 0 := by omega
  omega

theorem or128_and127 (b : Nat) : (b ||| 128) &&& 127 = b &&& 127 := by
  rw [Nat.and_distrib_right]
  norm_num [and127]

theorem or128_and128 (b : Nat) : (b ||| 128) &&& 128 = 128 := by
  rw [Nat.and_distrib_right, and128]
  rcases Nat.mod_two_eq_zero_or_one (b / 128) with h | h <;> rw [h] <;> norm_num

/-! Varint facts: the spec-side reassembly `varintSum`, the code's
accumulator fold `varintOut`, and the minimal encoding `varintEncode`. -/

theorem varintOut_eq (a : List Nat) : varintOut a = varintSum a % 2 ^ 64 := by
  induction a with
  | nil => simp [varintOut, varintSum]
  | cons b a ih =>
    have step : varintOut (b :: a)
        = (varintOut a <<< 7 % 18446744073709551616) ||| (b &&& 127) := by
      simp [varintOut, List.foldl_append]
    rw [step, ih, Nat.shiftLeft_eq]
    simp only [varintSum]
    rw [show (18446744073709551616 : Nat) = 2 ^ 64 from by norm_num]
    rw [show (2 : Nat) ^ 7 = 128 from by norm_num]
    rw [Nat.mod_mul_mod]
    rw [show (2 : Nat) ^ 64 = 144115188075855872 * 128 from by norm_num]
    rw [Nat.mul_mod_mul_right]
    rw [show varintSum a % 144115188075855872 * 128
        = 128 * (varintSum a % 144115188075855872) from by ring]
    rw [lor_mul_add _ _ (by rw [and127]; omega), and127]
    omega

theorem varintSum_encode (n : Nat) : varintSum (varintEncode n) = n := by
  induction n using Nat.strong_induction_on with
  | _ n ih =>
    rw [varintEncode]
    by_cases h : n < 128
    · simp [h, varintSum, and127]
      try omega
    · simp [h, varintSum, and127]
      rw [ih (n / 128) (by omega)]
      omega

theorem varintEncode_byte_lt (n : Nat) : ∀ b ∈ varintEncode n, b < 256 := by
  induction n using Nat.strong_induction_on with
  | _ n ih =>
    intro b hb
    rw [varintEncode] at hb
    by_cases h : n < 128
    · simp [h] at hb
      omega
    · simp [h] at hb
      rcases hb with rfl | hb
      · omega
      · exact ih (n / 128) (by omega) b hb

theorem varintEncode_length_le (k : Nat) :
    ∀ n, n < 2 ^ (7 * k) → 0 < k → (varintEncode n).length ≤ k := by
  induction k with
  | zero => omega
  | succ k ih =>
    intro n hn _
    rw [varintEncode]
    by_cases h : n < 128
    · simp [h]
      try omega
    · simp [h]
      have hk : 0 < k := by
        by_contra hk0
        have hz : k = 0 := by omega
        subst hz
        norm_num at hn
        try omega
      have : n / 128 < 2 ^ (7 * k) := by
        have h2 : (2 : Nat) ^ (7 * (k + 1)) = 2 ^ (7 * k) * 128 := by
          rw [Nat.mul_succ, Nat.pow_add]
          try norm_num
        rw [h2] at hn
        omega
      exact ih (n / 128) this hk

theorem varintEncode_decomp (n : Nat) :
    ∃ p b, varintEncode n = p ++ [b] ∧ b &&& 128 = 0 ∧ ∀ c ∈ p, c &&& 128 ≠ 0 := by
  induction n using Nat.strong_induction_on with
  | _ n ih =>
    rw [varintEncode]
    by_cases h : n < 128
    · exact ⟨[], n, by simp [h], and128_low n h, by simp⟩
    · obtain ⟨p, b, hpb, hb, hp⟩ := ih (n / 128) (by omega)
      refine ⟨(n % 128 + 128) :: p, b, by simp [h, hpb], hb, ?_⟩
      intro c hc
      rcases List.mem_cons.mp hc with rfl | hc
      · rw [and128_high _ (by omega) (by omega)]
        omega
      · exact hp c hc

theorem varintEncode_high (n : Nat) (p q : List Nat)
    (h : varintEncode n = p ++ q) (hq : q ≠ []) : ∀ c ∈ p, c &&& 128 ≠ 0 := by
  obtain ⟨p0, b, hpb, _, hp0⟩ := varintEncode_decomp n
  rw [hpb] at h
  intro c hc
  apply hp0
  rcases List.append_eq_append_iff.mp h with ⟨a', ha1, ha2⟩ | ⟨c', hc1, _⟩
  · have ha : a' = [] := by
      rcases a' with _ | ⟨x, a'⟩
      · rfl
      · exfalso
        have hl := congrArg List.length ha2
        rcases q with _ | ⟨y, q⟩
        · exact hq rfl
        · simp at hl
    rw [ha, List.append_nil] at ha1
    rw [← ha1]
    exact hc
  · rw [hc1]
    exact List.mem_append_left c' hc

theorem varintEncode_ne_nil (n : Nat) : varintEncode n ≠ [] := by
  obtain ⟨p, b, hpb, _, _⟩ := varintEncode_decomp n
  simp [hpb]

/-! Behaviour of the varint scan loop. -/

theorem go_found (input : List Nat) (k b : Nat)
    (hget : input.get? k = Option.some b) (hb : b &&& 128 = 0)
    (hprev : ∀ j c, j < k → input.get? j = Option.some c → c &&& 128 ≠ 0) :
    ∀ fuel i, i ≤ k → k - i < fuel →
      try_take_varint_go input i fuel
        = (.ok (varintOut (input.take (k + 1))), input.drop (k + 1)) := by
  intro fuel
  induction fuel with
  | zero => omega
  | succ fuel ih =>
    intro i hik hfuel
    have hklen : k < input.length := (List.get?_eq_some.mp hget).1
    have hilen : i < input.length := by omega
    rw [try_take_varint_go, List.get?_eq_get hilen]
    by_cases hik2 : i = k
    · subst hik2
      rw [List.get?_eq_get hilen] at hget
      have hbi : input.get ⟨i, hilen⟩ = b := by
        injection hget
      rw [hbi]
      simp [hb]
    · have hhigh := hprev i (input.get ⟨i, hilen⟩) (by omega) (List.get?_eq_get hilen)
      have : ¬(input.get ⟨i, hilen⟩ &&& 128 == 0) := by
        simpa using hhigh
      simp only [this, if_false]
      exact ih (i + 1) (by omega) (by omega)

theorem go_exhaust (input : List Nat)
    (hall : ∀ c ∈ input, c &&& 128 ≠ 0) :
    ∀ fuel i, input.length - i < fuel → i ≤ input.length →
      try_take_varint_go input i fuel
        = (.error .DeserializeUnexpectedEnd, input) := by
  intro fuel
  induction fuel with
  | zero => omega
  | succ fuel ih =>
    intro i hfuel hlen
    rw [try_take_varint_go]
    by_cases hi : i < input.length
    · rw [List.get?_eq_get hi]
      have hhigh := hall (input.get ⟨i, hi⟩) (input.get_mem i hi)
      have : ¬(input.get ⟨i, hi⟩ &&& 128 == 0) := by
        simpa using hhigh
      simp only [this, if_false]
      exact ih (i + 1) (by omega) (by omega)
    · have : input.get? i = Option.none := by
        rw [List.get?_eq_none]
        omega
      rw [this]

theorem go_overflow (input : List Nat) :
    ∀ fuel i,
      (∀ j c, i ≤ j → j < i + fuel → input.get? j = Option.some c → c &&& 128 ≠ 0) →
      i + fuel ≤ input.length →
      try_take_varint_go input i fuel = (.error .DeserializeBadVarint, input) := by
  intro fuel
  induction fuel with
  | zero =>
    intro i _ _
    rw [try_take_varint_go]
  | succ fuel ih =>
    intro i hhigh hlen
    have hi : i < input.length := by omega
    rw [try_take_varint_go, List.get?_eq_get hi]
    have hh := hhigh i (input.get ⟨i, hi⟩) (by omega) (by omega) (List.get?_eq_get hi)
    have : ¬(input.get ⟨i, hi⟩ &&& 128 == 0) := by
      simpa using hh
    simp only [this, if_false]
    exact ih (i + 1) (fun j c h1 h2 => hhigh j c (by omega) (by omega)) (by omega)

/-! The top-level varint decode on encodings. -/

theorem try_take_varint_encode (n : Nat) (hn : n < 2 ^ 64) (rest : List Nat) :
    try_take_varint (varintEncode n ++ rest) = (.ok n, rest) := by
  obtain ⟨p, b, hpb, hb, hp⟩ := varintEncode_decomp n
  have hlen : (varintEncode n).length ≤ 10 := by
    apply varintEncode_length_le 10 n ?_ (by omega)
    calc n < 2 ^ 64 := hn
      _ ≤ 2 ^ (7 * 10) := by norm_num
  have hplen : p.length + 1 = (varintEncode n).length := by
    rw [hpb]
    simp
  have hget : (varintEncode n ++ rest).get? p.length = Option.some b := by
    rw [hpb, List.append_assoc, List.get?_append_right (by omega)]
    simp
  have hprev : ∀ j c, j < p.length →
      (varintEncode n ++ rest).get? j = Option.some c → c &&& 128 ≠ 0 := by
    intro j c hj hgj
    apply hp
    rw [hpb, List.append_assoc, List.get?_append (by omega)] at hgj
    exact List.get?_mem hgj
  have hmain := go_found (varintEncode n ++ rest) p.length b hget hb hprev
    varint_usize_max 0 (by omega) (by simp [varint_usize_max]; omega)
  rw [try_take_varint, hmain]
  rw [List.take_left' (by omega), List.drop_left' (by omega)]
  rw [varintOut_eq, varintSum_encode, Nat.mod_eq_of_lt hn]

theorem try_take_varint_prefix (n : Nat) (hn : n < 2 ^ 64) (p q : List Nat)
    (h : varintEncode n = p ++ q) (hq : q ≠ []) :
    try_take_varint p = (.error .DeserializeUnexpectedEnd, p) := by
  have hlen : (varintEncode n).length ≤ 10 := by
    apply varintEncode_length_le 10 n ?_ (by omega)
    calc n < 2 ^ 64 := hn
      _ ≤ 2 ^ (7 * 10) := by norm_num
  have hplen : p.length < (varintEncode n).length := by
    have hl := congrArg List.length h
    simp at hl
    rcases q with _ | ⟨x, q⟩
    · exact absurd rfl hq
    · simp at hl
      omega
  have hall : ∀ c ∈ p, c &&& 128 ≠ 0 := varintEncode_high n p q h hq
  rw [try_take_varint]
  exact go_exhaust p hall varint_usize_max 0
    (by simp [varint_usize_max]; omega) (by omega)

/-! Non-minimal (zero-padded) varint encodings. -/

theorem varintSum_append (a b : List Nat) :
    varintSum (a ++ b) = varintSum a + 128 ^ a.length * varintSum b := by
  induction a with
  | nil => simp [varintSum]
  | cons x a ih =>
    show varintSum (x :: (a ++ b))
        = varintSum (x :: a) + 128 ^ (x :: a).length * varintSum b
    simp only [varintSum, ih, List.length_cons]
    ring

theorem varintSum_map_or128 (a : List Nat) :
    varintSum (a.map (fun b => b ||| 128)) = varintSum a := by
  induction a with
  | nil => simp
  | cons x a ih =>
    simp only [List.map_cons, varintSum, ih, or128_and127]

theorem varintSum_replicate128 (p : Nat) :
    varintSum (List.replicate p 128) = 0 := by
  induction p with
  | zero => simp [varintSum]
  | succ p ih =>
    rw [List.replicate_succ, varintSum, ih]
    norm_num [and127]

theorem padVarint_length (n pad : Nat) :
    (padVarint n pad).length = (varintEncode n).length + pad := by
  cases pad with
  | zero => simp [padVarint]
  | succ p =>
    simp [padVarint]
    try omega

theorem varintSum_padVarint (n pad : Nat) :
    varintSum (padVarint n pad) = n := by
  cases pad with
  | zero => rw [padVarint, varintSum_encode]
  | succ p =>
    rw [padVarint, varintSum_append, varintSum_append, varintSum_map_or128,
      varintSum_encode, varintSum_replicate128]
    norm_num [varintSum, and127]

theorem padVarint_high (n pad : Nat) (hpad : 0 < pad) :
    ∀ j c, j < (varintEncode n).length + pad - 1 →
      (padVarint n pad).get? j = Option.some c → c &&& 128 ≠ 0 := by
  cases pad with
  | zero => omega
  | succ p =>
    intro j c hj hget
    rw [padVarint] at hget
    set me := (varintEncode n).map (fun b => b ||| 128) with hme
    have hmelen : me.length = (varintEncode n).length := by simp [hme]
    by_cases hjm : j < me.length
    · rw [List.append_assoc, List.get?_append hjm] at hget
      have hc := List.get?_mem hget
      rw [hme] at hc
      obtain ⟨b0, _, hb0⟩ := List.mem_map.mp hc
      rw [← hb0, or128_and128]
      omega
    · rw [List.append_assoc, List.get?_append_right (by omega)] at hget
      have hjr : j - me.length < p := by omega
      rw [List.get?_append (by simpa using hjr)] at hget
      have hc := List.get?_mem hget
      have : c = 128 := List.eq_of_mem_replicate hc
      subst this
      rw [and128_high _ (by omega) (by omega)]
      omega

theorem padVarint_last (n pad : Nat) (hpad : 0 < pad) :
    (padVarint n pad).get? ((varintEncode n).length + pad - 1) = Option.some 0 := by
  cases pad with
  | zero => omega
  | succ p =>
    rw [padVarint]
    have hmelen : ((varintEncode n).map (fun b => b ||| 128)).length
        = (varintEncode n).length := by simp
    rw [List.append_assoc, List.get?_append_right (by rw [hmelen]; omega)]
    rw [hmelen]
    have hidx : (varintEncode n).length + (p + 1) - 1 - (varintEncode n).length
        = p := by omega
    rw [hidx, List.get?_append_right (by simp)]
    simp

theorem try_take_varint_pad (n pad : Nat) (hn : n < 2 ^ 64)
    (hlen : (varintEncode n).length + pad ≤ varint_usize_max) (rest : List Nat) :
    try_take_varint (padVarint n pad ++ rest) = (.ok n, rest) := by
  cases pad with
  | zero =>
    rw [padVarint]
    exact try_take_varint_encode n hn rest
  | succ p =>
    set pv := padVarint n (p + 1) with hpv
    have hpvlen : pv.length = (varintEncode n).length + (p + 1) := by
      rw [hpv, padVarint_length]
    set k := pv.length - 1 with hk
    have hget : (pv ++ rest).get? k = Option.some 0 := by
      rw [List.get?_append (by omega), hpv]
      have := padVarint_last n (p + 1) (by omega)
      rw [← hpv] at this ⊢
      have hk2 : k = (varintEncode n).length + (p + 1) - 1 := by omega
      rw [hk2]
      exact this
    have hprev : ∀ j c, j < k → (pv ++ rest).get? j = Option.some c →
        c &&& 128 ≠ 0 := by
      intro j c hj hgj
      rw [List.get?_append (by omega)] at hgj
      exact padVarint_high n (p + 1) (by omega) j c (by omega) hgj
    have hmain := go_found (pv ++ rest) k 0 hget (by norm_num [and128]) hprev
      varint_usize_max 0 (by omega)
      (by have h10 : varint_usize_max = 10 := rfl; omega)
    rw [try_take_varint, hmain]
    rw [List.take_left' (by omega), List.drop_left' (by omega)]
    rw [varintOut_eq, hpv, varintSum_padVarint, Nat.mod_eq_of_lt hn]

/-! Cursor monotonicity: the unread input after any operation is a suffix
of the unread input before it. -/

theorem suffixOf_refl (a : List Nat) : SuffixOf a a := ⟨[], rfl⟩

theorem suffixOf_drop (n : Nat) (a : List Nat) : SuffixOf (a.drop n) a :=
  ⟨a.take n, List.take_append_drop n a⟩

theorem suffixOf_trans {a b c : List Nat}
    (h1 : SuffixOf a b) (h2 : SuffixOf b c) : SuffixOf a c := by
  obtain ⟨t1, h1⟩ := h1
  obtain ⟨t2, h2⟩ := h2
  exact ⟨t2 ++ t1, by rw [List.append_assoc, h1, h2]⟩

theorem try_take_n_suffix (ct : Nat) (input : List Nat) :
    SuffixOf (try_take_n ct input).2 input := by
  rw [try_take_n]
  by_cases h : ct ≤ input.length
  · simp only [h, if_true]
    exact suffixOf_drop ct input
  · simp only [h, if_false]
    exact suffixOf_refl input

theorem go_suffix (input : List Nat) :
    ∀ fuel i, SuffixOf (try_take_varint_go input i fuel).2 input := by
  intro fuel
  induction fuel with
  | zero =>
    intro i
    rw [try_take_varint_go]
    exact suffixOf_refl input
  | succ fuel ih =>
    intro i
    rcases hg : input[i]? with _ | val
    · simp [try_take_varint_go, hg]
      exact suffixOf_refl input
    · by_cases hv : val &&& 128 = 0
      · simp [try_take_varint_go, hg, hv]
        exact suffixOf_drop (i + 1) input
      · simp [try_take_varint_go, hg, hv]
        exact ih (i + 1)

theorem try_take_varint_suffix (input : List Nat) :
    SuffixOf (try_take_varint input).2 input :=
  go_suffix input varint_usize_max 0

theorem variant_seed_suffix (input : List Nat) :
    SuffixOf (variant_seed input).2 input := by
  rcases h : try_take_varint input with ⟨r, rest⟩
  have hs : SuffixOf rest input := by
    have := try_take_varint_suffix input
    rwa [h] at this
  cases r with
  | error e =>
    simp [variant_seed, h]
    exact hs
  | ok n =>
    by_cases hn : 4294967295 < n <;> simp [variant_seed, h, hn] <;> exact hs

theorem decodeMany_suffix (dec : List Nat → Except Error Value × List Nat)
    (hdec : ∀ b, SuffixOf (dec b).2 b) :
    ∀ n input, SuffixOf (decodeMany dec n input).2 input := by
  intro n
  induction n with
  | zero =>
    intro input
    exact suffixOf_refl input
  | succ n ih =>
    intro input
    rcases h1 : dec input with ⟨r1, rest1⟩
    have hs1 : SuffixOf rest1 input := by
      have := hdec input
      rwa [h1] at this
    cases r1 with
    | error e =>
      simp [decodeMany, h1]
      exact hs1
    | ok v =>
      rcases h2 : decodeMany dec n rest1 with ⟨r2, rest2⟩
      have hs2 : SuffixOf rest2 rest1 := by
        have := ih rest1
        rwa [h2] at this
      cases r2 with
      | error e =>
        simp [decodeMany, h1, h2]
        exact suffixOf_trans hs2 hs1
      | ok vs =>
        simp [decodeMany, h1, h2]
        exact suffixOf_trans hs2 hs1

mutual

theorem decode_suffix (s : Shape) (input : List Nat) :
    SuffixOf (decode s input).2 input := by
  cases s with
  | bool =>
    rcases h1 : try_take_n 1 input with ⟨r1, rest1⟩
    have hs1 : SuffixOf rest1 input := by
      have := try_take_n_suffix 1 input
      rwa [h1] at this
    cases r1 with
    | error e =>
      simp [decode, h1]
      exact hs1
    | ok bs =>
      rcases hb : byte0 bs with _ | (_ | b) <;> simp [decode, h1, hb] <;> exact hs1
  | u8 =>
    rcases h1 : try_take_n 1 input with ⟨r1, rest1⟩
    have hs1 : SuffixOf rest1 input := by
      have := try_take_n_suffix 1 input
      rwa [h1] at this
    cases r1 <;> simp [decode, h1] <;> exact hs1
  | u16 =>
    rcases h1 : try_take_n 2 input with ⟨r1, rest1⟩
    have hs1 : SuffixOf rest1 input := by
      have := try_take_n_suffix 2 input
      rwa [h1] at this
    cases r1 <;> simp [decode, h1] <;> exact hs1
  | u32 =>
    rcases h1 : try_take_n 4 input with ⟨r1, rest1⟩
    have hs1 : SuffixOf rest1 input := by
      have := try_take_n_suffix 4 input
      rwa [h1] at this
    cases r1 <;> simp [decode, h1] <;> exact hs1
  | u64 =>
    rcases h1 : try_take_n 8 input with ⟨r1, rest1⟩
    have hs1 : SuffixOf rest1 input := by
      have := try_take_n_suffix 8 input
      rwa [h1] at this
    cases r1 <;> simp [decode, h1] <;> exact hs1
  | str =>
    rcases h1 : try_take_varint input with ⟨r1, rest1⟩
    have hs1 : SuffixOf rest1 input := by
      have := try_take_varint_suffix input
      rwa [h1] at this
    cases r1 with
    | error e =>
      simp [decode, h1]
      exact hs1
    | ok sz =>
      rcases h2 : try_take_n sz rest1 with ⟨r2, rest2⟩
      have hs2 : SuffixOf rest2 rest1 := by
        have := try_take_n_suffix sz rest1
        rwa [h2] at this
      cases r2 with
      | error e =>
        simp [decode, h1, h2]
        exact suffixOf_trans hs2 hs1
      | ok bs =>
        cases hu : validUtf8 bs <;> simp [decode, h1, h2, hu] <;>
          exact suffixOf_trans hs2 hs1
  | bytes =>
    rcases h1 : try_take_varint input with ⟨r1, rest1⟩
    have hs1 : SuffixOf rest1 input := by
      have := try_take_varint_suffix input
      rwa [h1] at this
    cases r1 with
    | error e =>
      simp [decode, h1]
      exact hs1
    | ok sz =>
      rcases h2 : try_take_n sz rest1 with ⟨r2, rest2⟩
      have hs2 : SuffixOf rest2 rest1 := by
        have := try_take_n_suffix sz rest1
        rwa [h2] at this
      cases r2 <;> simp [decode, h1, h2] <;> exact suffixOf_trans hs2 hs1
  | option s =>
    rcases h1 : try_take_n 1 input with ⟨r1, rest1⟩
    have hs1 : SuffixOf rest1 input := by
      have := try_take_n_suffix 1 input
      rwa [h1] at this
    cases r1 with
    | error e =>
      simp [decode, h1]
      exact hs1
    | ok bs =>
      rcases hb : byte0 bs with _ | (_ | b)
      · simp [decode, h1, hb]
        exact hs1
      · rcases h2 : decode s rest1 with ⟨r2, rest2⟩
        have hs2 : SuffixOf rest2 rest1 := by
          have := decode_suffix s rest1
          rwa [h2] at this
        cases r2 <;> simp [decode, h1, hb, h2] <;> exact suffixOf_trans hs2 hs1
      · simp [decode, h1, hb]
        exact hs1
  | unit =>
    simp [decode]
    exact suffixOf_refl input
  | unitStruct =>
    simp [decode]
    exact suffixOf_refl input
  | newtypeStruct s =>
    rcases h1 : decode s input with ⟨r1, rest1⟩
    have hs1 : SuffixOf rest1 input := by
      have := decode_suffix s input
      rwa [h1] at this
    cases r1 <;> simp [decode, h1] <;> exact hs1
  | seq s =>
    rcases h1 : try_take_varint input with ⟨r1, rest1⟩
    have hs1 : SuffixOf rest1 input := by
      have := try_take_varint_suffix input
      rwa [h1] at this
    cases r1 with
    | error e =>
      simp [decode, h1]
      exact hs1
    | ok len =>
      rcases h2 : decodeMany (fun b => decode s b) len rest1 with ⟨r2, rest2⟩
      have hs2 : SuffixOf rest2 rest1 := by
        have := decodeMany_suffix (fun b => decode s b)
          (fun b => decode_suffix s b) len rest1
        rwa [h2] at this
      cases r2 <;> simp [decode, h1, h2] <;> exact suffixOf_trans hs2 hs1
  | tuple ss =>
    rcases h1 : decodeFields ss input with ⟨r1, rest1⟩
    have hs1 : SuffixOf rest1 input := by
      have := decodeFields_suffix ss input
      rwa [h1] at this
    cases r1 <;> simp [decode, h1] <;> exact hs1
  | tupleStruct ss =>
    rcases h1 : try_take_varint input with ⟨r1, rest1⟩
    have hs1 : SuffixOf rest1 input := by
      have := try_take_varint_suffix input
      rwa [h1] at this
    cases r1 with
    | error e =>
      simp [decode, h1]
      exact hs1
    | ok len =>
      rcases h2 : decodeFieldsLimited ss len rest1 with ⟨r2, rest2⟩
      have hs2 : SuffixOf rest2 rest1 := by
        have := decodeFieldsLimited_suffix ss len rest1
        rwa [h2] at this
      cases r2 <;> simp [decode, h1, h2] <;> exact suffixOf_trans hs2 hs1
  | struct ss =>
    rcases h1 : decodeFields ss input with ⟨r1, rest1⟩
    have hs1 : SuffixOf rest1 input := by
      have := decodeFields_suffix ss input
      rwa [h1] at this
    cases r1 <;> simp [decode, h1] <;> exact hs1
  | enum vars =>
    rcases h1 : variant_seed input with ⟨r1, rest1⟩
    have hs1 : SuffixOf rest1 input := by
      have := variant_seed_suffix input
      rwa [h1] at this
    cases r1 with
    | error e =>
      simp [decode, h1]
      exact hs1
    | ok ord =>
      by_cases hlt : ord < vars.length
      · rcases h2 : decode vars[ord] rest1 with ⟨r2, rest2⟩
        have hs2 : SuffixOf rest2 rest1 := by
          have := decode_suffix vars[ord] rest1
          rwa [h2] at this
        cases r2 <;> simp [decode, h1, hlt, h2] <;> exact suffixOf_trans hs2 hs1
      · simp [decode, h1, hlt]
        exact hs1
termination_by (sizeOf s, 0)
decreasing_by
  all_goals simp_wf
  all_goals try omega
  · have := List.sizeOf_lt_of_mem (List.getElem_mem hlt)
    omega

theorem decodeFields_suffix (ss : List Shape) (input : List Nat) :
    SuffixOf (decodeFields ss input).2 input := by
  cases ss with
  | nil =>
    simp [decodeFields]
    exact suffixOf_refl input
  | cons s ss =>
    rcases h1 : decode s input with ⟨r1, rest1⟩
    have hs1 : SuffixOf rest1 input := by
      have := decode_suffix s input
      rwa [h1] at this
    cases r1 with
    | error e =>
      simp [decodeFields, h1]
      exact hs1
    | ok v =>
      rcases h2 : decodeFields ss rest1 with ⟨r2, rest2⟩
      have hs2 : SuffixOf rest2 rest1 := by
        have := decodeFields_suffix ss rest1
        rwa [h2] at this
      cases r2 <;> simp [decodeFields, h1, h2] <;> exact suffixOf_trans hs2 hs1
termination_by (sizeOf ss, 0)
decreasing_by
  all_goals simp_wf <;> omega

theorem decodeFieldsLimited_suffix (ss : List Shape) (n : Nat) (input : List Nat) :
    SuffixOf (decodeFieldsLimited ss n input).2 input := by
  cases ss with
  | nil =>
    simp [decodeFieldsLimited]
    exact suffixOf_refl input
  | cons s ss =>
    cases n with
    | zero =>
      simp [decodeFieldsLimited]
      exact suffixOf_refl input
    | succ n =>
      rcases h1 : decode s input with ⟨r1, rest1⟩
      have hs1 : SuffixOf rest1 input := by
        have := decode_suffix s input
        rwa [h1] at this
      cases r1 with
      | error e =>
        simp [decodeFieldsLimited, h1]
        exact hs1
      | ok v =>
        rcases h2 : decodeFieldsLimited ss n rest1 with ⟨r2, rest2⟩
        have hs2 : SuffixOf rest2 rest1 := by
          have := decodeFieldsLimited_suffix ss n rest1
          rwa [h2] at this
        cases r2 <;> simp [decodeFieldsLimited, h1, h2] <;>
          exact suffixOf_trans hs2 hs1
termination_by (sizeOf ss, 0)
decreasing_by
  all_goals simp_wf <;> omega

end

/-! The round-trip: on any well-formed value of a shape free of
tuple-structs, the decoder consumes exactly the encoding and rebuilds the
value, leaving precisely the trailing bytes. -/

theorem try_take_n_exact (ct : Nat) (l rest : List Nat) (h : l.length = ct) :
    try_take_n ct (l ++ rest) = (.ok l, rest) := by
  subst h
  rw [try_take_n]
  simp [List.take_left, List.drop_left]

theorem noTupleStructList_mem (ss : List Shape) (h : noTupleStructList ss = true) :
    ∀ s ∈ ss, noTupleStruct s = true := by
  induction ss with
  | nil =>
    intro s hs
    cases hs
  | cons s0 ss ih =>
    intro s hs
    rw [noTupleStructList] at h
    simp at h
    rcases List.mem_cons.mp hs with rfl | hs
    · exact h.1
    · exact ih h.2 s hs

theorem decodeMany_encodeList (s : Shape)
    (IH : ∀ v, wf s v = true → ∀ r, decode s (encode s v ++ r) = (.ok v, r)) :
    ∀ vs, wfList s vs = true → ∀ rest,
      decodeMany (fun b => decode s b) vs.length (encodeList s vs ++ rest)
        = (.ok vs, rest) := by
  intro vs
  induction vs with
  | nil =>
    intro _ rest
    simp [encodeList, decodeMany]
  | cons v vs ihl =>
    intro hv rest
    simp [wfList] at hv
    rw [show encodeList s (v :: vs) = encode s v ++ encodeList s vs from by
      simp [encodeList]]
    rw [List.append_assoc]
    simp only [List.length_cons, decodeMany]
    rw [IH v hv.1 (encodeList s vs ++ rest)]
    simp [ihl hv.2 rest]

theorem decodeFields_encodeFields (ss : List Shape)
    (IH : ∀ s ∈ ss, ∀ v, wf s v = true → ∀ r,
      decode s (encode s v ++ r) = (.ok v, r)) :
    ∀ vs, wfFields ss vs = true → ∀ rest,
      decodeFields ss (encodeFields ss vs ++ rest) = (.ok vs, rest) := by
  induction ss with
  | nil =>
    intro vs hv rest
    cases vs with
    | nil => simp [encodeFields, decodeFields]
    | cons v vs => simp [wfFields] at hv
  | cons s ss ihs =>
    intro vs hv rest
    cases vs with
    | nil => simp [wfFields] at hv
    | cons v vs =>
      simp [wfFields] at hv
      rw [show encodeFields (s :: ss) (v :: vs)
          = encode s v ++ encodeFields ss vs from by simp [encodeFields]]
      rw [List.append_assoc]
      simp only [decodeFields]
      rw [IH s (List.mem_cons_self s ss) v hv.1 (encodeFields ss vs ++ rest)]
      simp [ihs (fun s2 hs2 => IH s2 (List.mem_cons_of_mem s hs2)) vs hv.2 rest]

theorem decode_encode_aux (n : Nat) : ∀ (s : Shape), sizeOf s ≤ n →
    noTupleStruct s = true → ∀ v, wf s v = true → ∀ rest,
    decode s (encode s v ++ rest) = (.ok v, rest) := by
  induction n using Nat.strong_induction_on with
  | _ n ih =>
    intro s hn hs v hv rest
    cases s with
    | bool =>
      cases v <;> simp [wf] at hv
      case bool b =>
        cases b
        · rw [show encode .bool (.bool false) = [0] from by simp [encode]]
          simp only [decode]
          rw [try_take_n_exact 1 [0] rest rfl]
          simp [byte0]
        · rw [show encode .bool (.bool true) = [1] from by simp [encode]]
          simp only [decode]
          rw [try_take_n_exact 1 [1] rest rfl]
          simp [byte0]
    | u8 =>
      cases v <;> simp [wf] at hv
      case uint m =>
        rw [show encode .u8 (.uint m) = [m % 256] from by simp [encode, leBytes]]
        simp only [decode]
        rw [try_take_n_exact 1 [m % 256] rest rfl]
        simp [fromLE]
        omega
    | u16 =>
      cases v <;> simp [wf] at hv
      case uint m =>
        rw [show encode .u16 (.uint m) = [m % 256, m / 256 % 256] from by
          simp [encode, leBytes]]
        simp only [decode]
        rw [try_take_n_exact 2 [m % 256, m / 256 % 256] rest rfl]
        simp [fromLE]
        omega
    | u32 =>
      cases v <;> simp [wf] at hv
      case uint m =>
        rw [show encode .u32 (.uint m) = [m % 256, m / 256 % 256,
            m / 256 / 256 % 256, m / 256 / 256 / 256 % 256] from by
          simp [encode, leBytes]]
        simp only [decode]
        rw [try_take_n_exact 4 [m % 256, m / 256 % 256, m / 256 / 256 % 256,
          m / 256 / 256 / 256 % 256] rest rfl]
        simp [fromLE]
        omega
    | u64 =>
      cases v <;> simp [wf] at hv
      case uint m =>
        rw [show encode .u64 (.uint m) = [m % 256, m / 256 % 256,
            m / 256 / 256 % 256, m / 256 / 256 / 256 % 256,
            m / 256 / 256 / 256 / 256 % 256,
            m / 256 / 256 / 256 / 256 / 256 % 256,
            m / 256 / 256 / 256 / 256 / 256 / 256 % 256,
            m / 256 / 256 / 256 / 256 / 256 / 256 / 256 % 256] from by
          simp [encode, leBytes]]
        simp only [decode]
        rw [try_take_n_exact 8 [m % 256, m / 256 % 256, m / 256 / 256 % 256,
          m / 256 / 256 / 256 % 256, m / 256 / 256 / 256 / 256 % 256,
          m / 256 / 256 / 256 / 256 / 256 % 256,
          m / 256 / 256 / 256 / 256 / 256 / 256 % 256,
          m / 256 / 256 / 256 / 256 / 256 / 256 / 256 % 256] rest rfl]
        simp [fromLE]
        omega
    | str =>
      cases v <;> simp [wf] at hv
      case str bs =>
        obtain ⟨⟨hlen, hall⟩, hutf⟩ := hv
        rw [show encode .str (.str bs) = varintEncode bs.length ++ bs from by
          simp [encode]]
        rw [List.append_assoc]
        simp only [decode]
        rw [try_take_varint_encode bs.length (by omega) (bs ++ rest)]
        simp [try_take_n_exact bs.length bs rest rfl, hutf]
    | bytes =>
      cases v <;> simp [wf] at hv
      case bytes bs =>
        obtain ⟨hlen, hall⟩ := hv
        rw [show encode .bytes (.bytes bs) = varintEncode bs.length ++ bs from by
          simp [encode]]
        rw [List.append_assoc]
        simp only [decode]
        rw [try_take_varint_encode bs.length (by omega) (bs ++ rest)]
        simp [try_take_n_exact bs.length bs rest rfl]
    | option s0 =>
      simp [noTupleStruct] at hs
      have hsz : sizeOf s0 < n := by
        simp at hn
        omega
      cases v <;> simp [wf] at hv
      case none =>
        rw [show encode (.option s0) .none = [0] from by simp [encode]]
        simp only [decode]
        rw [try_take_n_exact 1 [0] rest rfl]
        simp [byte0]
      case some v0 =>
        rw [show encode (.option s0) (.some v0) = [1] ++ encode s0 v0 from by
          simp [encode]]
        rw [List.append_assoc]
        simp only [decode]
        rw [try_take_n_exact 1 [1] (encode s0 v0 ++ rest) rfl]
        simp [byte0,
          ih (sizeOf s0) hsz s0 (Nat.le_refl _) hs v0 hv rest]
    | unit =>
      cases v <;> simp [wf] at hv
      case unit => simp [encode, decode]
    | unitStruct =>
      cases v <;> simp [wf] at hv
      case unit => simp [encode, decode]
    | newtypeStruct s0 =>
      simp [noTupleStruct] at hs
      have hsz : sizeOf s0 < n := by
        simp at hn
        omega
      cases v <;> simp [wf] at hv
      case newtype v0 =>
        rw [show encode (.newtypeStruct s0) (.newtype v0) = encode s0 v0 from by
          simp [encode]]
        simp only [decode]
        simp [ih (sizeOf s0) hsz s0 (Nat.le_refl _) hs v0 hv rest]
    | seq s0 =>
      simp [noTupleStruct] at hs
      have hsz : sizeOf s0 < n := by
        simp at hn
        omega
      cases v <;> simp [wf] at hv
      case seq vs =>
        rw [show encode (.seq s0) (.seq vs)
            = varintEncode vs.length ++ encodeList s0 vs from by simp [encode]]
        rw [List.append_assoc]
        simp only [decode]
        rw [try_take_varint_encode vs.length (by omega)
          (encodeList s0 vs ++ rest)]
        simp [decodeMany_encodeList s0
          (fun v0 hv0 r => ih (sizeOf s0) hsz s0 (Nat.le_refl _) hs v0 hv0 r)
          vs hv.2 rest]
    | tuple ss =>
      simp [noTupleStruct] at hs
      have IHm : ∀ s2 ∈ ss, ∀ v2, wf s2 v2 = true → ∀ r,
          decode s2 (encode s2 v2 ++ r) = (.ok v2, r) := by
        intro s2 hmem v2 hv2 r
        have h1 := List.sizeOf_lt_of_mem hmem
        have h2 : sizeOf (Shape.tuple ss) = 1 + sizeOf ss := by simp
        exact ih (sizeOf s2) (by omega) s2 (Nat.le_refl _)
          (noTupleStructList_mem ss hs s2 hmem) v2 hv2 r
      cases v <;> simp [wf] at hv
      case seq vs =>
        rw [show encode (.tuple ss) (.seq vs) = encodeFields ss vs from by
          simp [encode]]
        simp only [decode]
        simp [decodeFields_encodeFields ss IHm vs hv rest]
    | tupleStruct ss =>
      simp [noTupleStruct] at hs
    | struct ss =>
      simp [noTupleStruct] at hs
      have IHm : ∀ s2 ∈ ss, ∀ v2, wf s2 v2 = true → ∀ r,
          decode s2 (encode s2 v2 ++ r) = (.ok v2, r) := by
        intro s2 hmem v2 hv2 r
        have h1 := List.sizeOf_lt_of_mem hmem
        have h2 : sizeOf (Shape.struct ss) = 1 + sizeOf ss := by simp
        exact ih (sizeOf s2) (by omega) s2 (Nat.le_refl _)
          (noTupleStructList_mem ss hs s2 hmem) v2 hv2 r
      cases v <;> simp [wf] at hv
      case seq vs =>
        rw [show encode (.struct ss) (.seq vs) = encodeFields ss vs from by
          simp [encode]]
        simp only [decode]
        simp [decodeFields_encodeFields ss IHm vs hv rest]
    | enum vars =>
      simp [noTupleStruct] at hs
      cases v <;> simp [wf] at hv
      case enum ord pv =>
        obtain ⟨hord, hdite⟩ := hv
        by_cases hlt : ord < vars.length
        · rw [dif_pos hlt] at hdite
          rw [show encode (.enum vars) (.enum ord pv)
              = varintEncode ord ++ encode (vars.get ⟨ord, hlt⟩) pv from by
            simp [encode, dif_pos hlt]]
          rw [List.append_assoc]
          simp only [decode, variant_seed]
          rw [try_take_varint_encode ord (by omega)
            (encode (vars.get ⟨ord, hlt⟩) pv ++ rest)]
          have hguard : ¬(4294967295 < ord) := by omega
          simp only [hguard, if_false]
          rw [Nat.mod_eq_of_lt (by omega : ord < 4294967296)]
          rw [dif_pos hlt]
          have hns : noTupleStruct vars[ord] = true :=
            noTupleStructList_mem vars hs vars[ord] (List.getElem_mem hlt)
          have hsz : sizeOf (vars.get ⟨ord, hlt⟩) < n := by
            have h1 := List.sizeOf_lt_of_mem (List.getElem_mem hlt)
            have h2 : sizeOf (Shape.enum vars) = 1 + sizeOf vars := by simp
            simp only [show vars.get ⟨ord, hlt⟩ = vars[ord] from rfl]
            omega
          rw [show vars.get ⟨ord, hlt⟩ = vars[ord] from rfl] at hsz ⊢
          simp [ih (sizeOf vars[ord]) hsz vars[ord] (Nat.le_refl _)
            hns pv hdite rest]
        · rw [dif_neg hlt] at hdite
          exact absurd hdite (by simp)

theorem decode_encode (s : Shape) (hs : noTupleStruct s = true) (v : Value)
    (hv : wf s v = true) (rest : List Nat) :
    decode s (encode s v ++ rest) = (.ok v, rest) :=
  decode_encode_aux (sizeOf s) s (Nat.le_refl _) hs v hv rest

/-! Truncation: decoding a strict prefix of a valid encoding fails with
`DeserializeUnexpectedEnd` (for shapes free of tuple-structs). -/

theorem try_take_n_short (ct : Nat) (input : List Nat) (h : input.length < ct) :
    try_take_n ct input = (.error .DeserializeUnexpectedEnd, input) := by
  rw [try_take_n, if_neg (by omega)]

theorem proper_prefix_length_lt (L p q : List Nat) (h : L = p ++ q)
    (hq : q ≠ []) : p.length < L.length := by
  subst h
  rcases q with _ | ⟨x, q⟩
  · exact absurd rfl hq
  · simp

theorem proper_prefix_of_singleton (x : Nat) (p q : List Nat)
    (h : [x] = p ++ q) (hq : q ≠ []) : p = [] := by
  rcases p with _ | ⟨y, p⟩
  · rfl
  · exfalso
    rcases q with _ | ⟨z, q⟩
    · exact hq rfl
    · have hlen := congrArg List.length h
      simp at hlen
      try omega

theorem decodeMany_prefix (s : Shape) (hs : noTupleStruct s = true)
    (IH2 : ∀ v, wf s v = true → ∀ p q, encode s v = p ++ q → q ≠ [] →
      (decode s p).1 = .error .DeserializeUnexpectedEnd) :
    ∀ vs, wfList s vs = true → ∀ p q, encodeList s vs = p ++ q → q ≠ [] →
      (decodeMany (fun b => decode s b) vs.length p).1
        = .error .DeserializeUnexpectedEnd := by
  intro vs
  induction vs with
  | nil =>
    intro _ p q h hq
    simp [encodeList] at h
    exact absurd h.2 hq
  | cons v vs ihl =>
    intro hv p q h hq
    simp [wfList] at hv
    rw [show encodeList s (v :: vs) = encode s v ++ encodeList s vs from by
      simp [encodeList]] at h
    simp only [List.length_cons, decodeMany]
    rcases List.append_eq_append_iff.mp h with ⟨a2, ha1, ha2⟩ | ⟨c2, hc1, hc2⟩
    · rw [ha1, decode_encode s hs v hv.1 a2]
      rcases h2 : decodeMany (fun b => decode s b) vs.length a2 with ⟨r2, rest2⟩
      have hr2 : r2 = .error .DeserializeUnexpectedEnd := by
        have h5 := ihl hv.2 a2 q ha2 hq
        rw [h2] at h5
        exact h5
      subst hr2
      simp [h2]
    · cases c2 with
      | nil =>
        have hp : p = encode s v := by simpa using hc1.symm
        have hde : decode s p = (.ok v, []) := by
          rw [hp]
          have h6 := decode_encode s hs v hv.1 []
          rwa [List.append_nil] at h6
        rw [hde]
        rcases h2 : decodeMany (fun b => decode s b) vs.length [] with ⟨r2, rest2⟩
        have hr2 : r2 = .error .DeserializeUnexpectedEnd := by
          have h5 := ihl hv.2 [] q (by simpa using hc2.symm) hq
          rw [h2] at h5
          exact h5
        subst hr2
        simp [h2]
      | cons x c3 =>
        rcases hd : decode s p with ⟨r1, rest1⟩
        have hr1 : r1 = .error .DeserializeUnexpectedEnd := by
          have h5 := IH2 v hv.1 p (x :: c3) hc1 (by simp)
          rw [hd] at h5
          exact h5
        subst hr1
        simp [hd]

theorem decodeFields_prefix (ss : List Shape) (hs : noTupleStructList ss = true)
    (IH2 : ∀ s ∈ ss, ∀ v, wf s v = true → ∀ p q, encode s v = p ++ q →
      q ≠ [] → (decode s p).1 = .error .DeserializeUnexpectedEnd) :
    ∀ vs, wfFields ss vs = true → ∀ p q, encodeFields ss vs = p ++ q →
      q ≠ [] →
      (decodeFields ss p).1 = .error .DeserializeUnexpectedEnd := by
  induction ss with
  | nil =>
    intro vs hv p q h hq
    cases vs with
    | nil =>
      simp [encodeFields] at h
      exact absurd h.2 hq
    | cons v vs => simp [wfFields] at hv
  | cons s ss ihs =>
    intro vs hv p q h hq
    cases vs with
    | nil => simp [wfFields] at hv
    | cons v vs =>
      simp [noTupleStructList] at hs
      simp [wfFields] at hv
      rw [show encodeFields (s :: ss) (v :: vs)
          = encode s v ++ encodeFields ss vs from by simp [encodeFields]] at h
      simp only [decodeFields]
      have IHtail := ihs hs.2 (fun s2 h2 => IH2 s2 (List.mem_cons_of_mem s h2)) vs hv.2
      rcases List.append_eq_append_iff.mp h with ⟨a2, ha1, ha2⟩ | ⟨c2, hc1, hc2⟩
      · rw [ha1, decode_encode s hs.1 v hv.1 a2]
        rcases h2 : decodeFields ss a2 with ⟨r2, rest2⟩
        have hr2 : r2 = .error .DeserializeUnexpectedEnd := by
          have h5 := IHtail a2 q ha2 hq
          rw [h2] at h5
          exact h5
        subst hr2
        simp [h2]
      · cases c2 with
        | nil =>
          have hp : p = encode s v := by simpa using hc1.symm
          have hde : decode s p = (.ok v, []) := by
            rw [hp]
            have h6 := decode_encode s hs.1 v hv.1 []
            rwa [List.append_nil] at h6
          rw [hde]
          rcases h2 : decodeFields ss [] with ⟨r2, rest2⟩
          have hr2 : r2 = .error .DeserializeUnexpectedEnd := by
            have h5 := IHtail [] q (by simpa using hc2.symm) hq
            rw [h2] at h5
            exact h5
          subst hr2
          simp [h2]
        | cons x c3 =>
          rcases hd : decode s p with ⟨r1, rest1⟩
          have hr1 : r1 = .error .DeserializeUnexpectedEnd := by
            have h5 := IH2 s (List.mem_cons_self s ss) v hv.1 p (x :: c3) hc1
              (by simp)
            rw [hd] at h5
            exact h5
          subst hr1
          simp [hd]

theorem decode_prefix_aux (n : Nat) : ∀ (s : Shape), sizeOf s ≤ n →
    noTupleStruct s = true → ∀ v, wf s v = true → ∀ p q,
    encode s v = p ++ q → q ≠ [] →
    (decode s p).1 = .error .DeserializeUnexpectedEnd := by
  induction n using Nat.strong_induction_on with
  | _ n ih =>
    intro s hn hs v hv p q h hq
    cases s with
    | bool =>
      cases v <;> simp [wf] at hv
      case bool b =>
        cases b
        · rw [show encode .bool (.bool false) = [0] from by simp [encode]] at h
          rw [proper_prefix_of_singleton 0 p q h hq]
          simp [decode, try_take_n]
        · rw [show encode .bool (.bool true) = [1] from by simp [encode]] at h
          rw [proper_prefix_of_singleton 1 p q h hq]
          simp [decode, try_take_n]
    | u8 =>
      cases v <;> simp [wf] at hv
      case uint m =>
        rw [show encode .u8 (.uint m) = [m % 256] from by
          simp [encode, leBytes]] at h
        have hl := proper_prefix_length_lt _ p q h hq
        have hw : ([m % 256] : List Nat).length = 1 := rfl
        simp only [decode]
        rw [try_take_n_short 1 p (by omega)]
    | u16 =>
      cases v <;> simp [wf] at hv
      case uint m =>
        rw [show encode .u16 (.uint m) = [m % 256, m / 256 % 256] from by
          simp [encode, leBytes]] at h
        have hl := proper_prefix_length_lt _ p q h hq
        have hw : ([m % 256, m / 256 % 256] : List Nat).length = 2 := rfl
        simp only [decode]
        rw [try_take_n_short 2 p (by omega)]
    | u32 =>
      cases v <;> simp [wf] at hv
      case uint m =>
        rw [show encode .u32 (.uint m) = [m % 256, m / 256 % 256,
            m / 256 / 256 % 256, m / 256 / 256 / 256 % 256] from by
          simp [encode, leBytes]] at h
        have hl := proper_prefix_length_lt _ p q h hq
        have hw : ([m % 256, m / 256 % 256, m / 256 / 256 % 256,
          m / 256 / 256 / 256 % 256] : List Nat).length = 4 := rfl
        simp only [decode]
        rw [try_take_n_short 4 p (by omega)]
    | u64 =>
      cases v <;> simp [wf] at hv
      case uint m =>
        rw [show encode .u64 (.uint m) = [m % 256, m / 256 % 256,
            m / 256 / 256 % 256, m / 256 / 256 / 256 % 256,
            m / 256 / 256 / 256 / 256 % 256,
            m / 256 / 256 / 256 / 256 / 256 % 256,
            m / 256 / 256 / 256 / 256 / 256 / 256 % 256,
            m / 256 / 256 / 256 / 256 / 256 / 256 / 256 % 256] from by
          simp [encode, leBytes]] at h
        have hl := proper_prefix_length_lt _ p q h hq
        have hw : ([m % 256, m / 256 % 256, m / 256 / 256 % 256,
          m / 256 / 256 / 256 % 256, m / 256 / 256 / 256 / 256 % 256,
          m / 256 / 256 / 256 / 256 / 256 % 256,
          m / 256 / 256 / 256 / 256 / 256 / 256 % 256,
          m / 256 / 256 / 256 / 256 / 256 / 256 / 256 % 256] : List Nat).length
          = 8 := rfl
        simp only [decode]
        rw [try_take_n_short 8 p (by omega)]
    | str =>
      cases v <;> simp [wf] at hv
      case str bs =>
        obtain ⟨⟨hlen, hall⟩, hutf⟩ := hv
        rw [show encode .str (.str bs) = varintEncode bs.length ++ bs from by
          simp [encode]] at h
        rcases List.append_eq_append_iff.mp h with ⟨a2, ha1, ha2⟩ | ⟨c2, hc1, hc2⟩
        · rw [ha1]
          simp only [decode]
          rw [try_take_varint_encode bs.length (by omega) a2]
          have hl := proper_prefix_length_lt bs a2 q ha2 hq
          simp [try_take_n_short bs.length a2 hl]
        · cases c2 with
          | nil =>
            have hp : p = varintEncode bs.length := by simpa using hc1.symm
            have hbs : bs ≠ [] := by
              intro hnil
              apply hq
              simp [hc2, hnil]
            rw [hp]
            simp only [decode]
            have hv1 := try_take_varint_encode bs.length (by omega) []
            rw [List.append_nil] at hv1
            rw [hv1]
            have hpos : 0 < bs.length := List.length_pos.mpr hbs
            simp [try_take_n_short bs.length [] (by simpa using hpos)]
          | cons x c3 =>
            have hvp := try_take_varint_prefix bs.length (by omega) p (x :: c3)
              hc1 (by simp)
            simp only [decode]
            rw [hvp]
    | bytes =>
      cases v <;> simp [wf] at hv
      case bytes bs =>
        obtain ⟨hlen, hall⟩ := hv
        rw [show encode .bytes (.bytes bs) = varintEncode bs.length ++ bs from by
          simp [encode]] at h
        rcases List.append_eq_append_iff.mp h with ⟨a2, ha1, ha2⟩ | ⟨c2, hc1, hc2⟩
        · rw [ha1]
          simp only [decode]
          rw [try_take_varint_encode bs.length (by omega) a2]
          have hl := proper_prefix_length_lt bs a2 q ha2 hq
          simp [try_take_n_short bs.length a2 hl]
        · cases c2 with
          | nil =>
            have hp : p = varintEncode bs.length := by simpa using hc1.symm
            have hbs : bs ≠ [] := by
              intro hnil
              apply hq
              simp [hc2, hnil]
            rw [hp]
            simp only [decode]
            have hv1 := try_take_varint_encode bs.length (by omega) []
            rw [List.append_nil] at hv1
            rw [hv1]
            have hpos : 0 < bs.length := List.length_pos.mpr hbs
            simp [try_take_n_short bs.length [] (by simpa using hpos)]
          | cons x c3 =>
            have hvp := try_take_varint_prefix bs.length (by omega) p (x :: c3)
              hc1 (by simp)
            simp only [decode]
            rw [hvp]
    | option s0 =>
      simp [noTupleStruct] at hs
      have hsz : sizeOf s0 < n := by
        simp at hn
        omega
      cases v <;> simp [wf] at hv
      case none =>
        rw [show encode (.option s0) .none = [0] from by simp [encode]] at h
        rw [proper_prefix_of_singleton 0 p q h hq]
        simp [decode, try_take_n]
      case some v0 =>
        rw [show encode (.option s0) (.some v0) = 1 :: encode s0 v0 from by
          simp [encode]] at h
        cases p with
        | nil =>
          simp [decode, try_take_n]
        | cons y p2 =>
          rw [List.cons_append] at h
          injection h with hy h2
          subst hy
          simp only [decode]
          rw [show (1 :: p2 : List Nat) = [1] ++ p2 from rfl]
          rw [try_take_n_exact 1 [1] p2 rfl]
          rcases hd : decode s0 p2 with ⟨r1, rest1⟩
          have hr1 : r1 = .error .DeserializeUnexpectedEnd := by
            have h5 := ih (sizeOf s0) hsz s0 (Nat.le_refl _) hs v0 hv p2 q
              h2 hq
            rw [hd] at h5
            exact h5
          subst hr1
          simp [byte0, hd]
    | unit =>
      cases v <;> simp [wf] at hv
      case unit =>
        rw [show encode .unit .unit = [] from by simp [encode]] at h
        simp at h
        exact absurd h.2 hq
    | unitStruct =>
      cases v <;> simp [wf] at hv
      case unit =>
        rw [show encode .unitStruct .unit = [] from by simp [encode]] at h
        simp at h
        exact absurd h.2 hq
    | newtypeStruct s0 =>
      simp [noTupleStruct] at hs
      have hsz : sizeOf s0 < n := by
        simp at hn
        omega
      cases v <;> simp [wf] at hv
      case newtype v0 =>
        rw [show encode (.newtypeStruct s0) (.newtype v0) = encode s0 v0 from by
          simp [encode]] at h
        simp only [decode]
        rcases hd : decode s0 p with ⟨r1, rest1⟩
        have hr1 : r1 = .error .DeserializeUnexpectedEnd := by
          have h5 := ih (sizeOf s0) hsz s0 (Nat.le_refl _) hs v0 hv p q h hq
          rw [hd] at h5
          exact h5
        subst hr1
        simp [hd]
    | seq s0 =>
      simp [noTupleStruct] at hs
      have hsz : sizeOf s0 < n := by
        simp at hn
        omega
      cases v <;> simp [wf] at hv
      case seq vs =>
        obtain ⟨hlen, hwl⟩ := hv
        have IH2 : ∀ v2, wf s0 v2 = true → ∀ p2 q2, encode s0 v2 = p2 ++ q2 →
            q2 ≠ [] → (decode s0 p2).1 = .error .DeserializeUnexpectedEnd :=
          fun v2 hv2 p2 q2 h2 hq2 =>
            ih (sizeOf s0) hsz s0 (Nat.le_refl _) hs v2 hv2 p2 q2 h2 hq2
        rw [show encode (.seq s0) (.seq vs)
            = varintEncode vs.length ++ encodeList s0 vs from by
          simp [encode]] at h
        rcases List.append_eq_append_iff.mp h with ⟨a2, ha1, ha2⟩ | ⟨c2, hc1, hc2⟩
        · rw [ha1]
          simp only [decode]
          rw [try_take_varint_encode vs.length (by omega) a2]
          rcases h2 : decodeMany (fun b => decode s0 b) vs.length a2
            with ⟨r2, rest2⟩
          have hr2 : r2 = .error .DeserializeUnexpectedEnd := by
            have h5 := decodeMany_prefix s0 hs IH2 vs hwl a2 q ha2 hq
            rw [h2] at h5
            exact h5
          subst hr2
          simp [h2]
        · cases c2 with
          | nil =>
            have hp : p = varintEncode vs.length := by simpa using hc1.symm
            have hq2 : encodeList s0 vs = [] ++ q := by simpa using hc2.symm
            rw [hp]
            simp only [decode]
            have hv1 := try_take_varint_encode vs.length (by omega) []
            rw [List.append_nil] at hv1
            rw [hv1]
            rcases h2 : decodeMany (fun b => decode s0 b) vs.length []
              with ⟨r2, rest2⟩
            have hr2 : r2 = .error .DeserializeUnexpectedEnd := by
              have h5 := decodeMany_prefix s0 hs IH2 vs hwl [] q hq2 hq
              rw [h2] at h5
              exact h5
            subst hr2
            simp [h2]
          | cons x c3 =>
            have hvp := try_take_varint_prefix vs.length (by omega) p (x :: c3)
              hc1 (by simp)
            simp only [decode]
            rw [hvp]
    | tuple ss =>
      simp [noTupleStruct] at hs
      have IH2m : ∀ s2 ∈ ss, ∀ v2, wf s2 v2 = true → ∀ p2 q2,
          encode s2 v2 = p2 ++ q2 → q2 ≠ [] →
          (decode s2 p2).1 = .error .DeserializeUnexpectedEnd := by
        intro s2 hmem v2 hv2 p2 q2 h2 hq2
        have h1 := List.sizeOf_lt_of_mem hmem
        have h3 : sizeOf (Shape.tuple ss) = 1 + sizeOf ss := by simp
        exact ih (sizeOf s2) (by omega) s2 (Nat.le_refl _)
          (noTupleStructList_mem ss hs s2 hmem) v2 hv2 p2 q2 h2 hq2
      cases v <;> simp [wf] at hv
      case seq vs =>
        rw [show encode (.tuple ss) (.seq vs) = encodeFields ss vs from by
          simp [encode]] at h
        simp only [decode]
        rcases hd : decodeFields ss p with ⟨r1, rest1⟩
        have hr1 : r1 = .error .DeserializeUnexpectedEnd := by
          have h5 := decodeFields_prefix ss hs IH2m vs hv p q h hq
          rw [hd] at h5
          exact h5
        subst hr1
        simp [hd]
    | tupleStruct ss =>
      simp [noTupleStruct] at hs
    | struct ss =>
      simp [noTupleStruct] at hs
      have IH2m : ∀ s2 ∈ ss, ∀ v2, wf s2 v2 = true → ∀ p2 q2,
          encode s2 v2 = p2 ++ q2 → q2 ≠ [] →
          (decode s2 p2).1 = .error .DeserializeUnexpectedEnd := by
        intro s2 hmem v2 hv2 p2 q2 h2 hq2
        have h1 := List.sizeOf_lt_of_mem hmem
        have h3 : sizeOf (Shape.struct ss) = 1 + sizeOf ss := by simp
        exact ih (sizeOf s2) (by omega) s2 (Nat.le_refl _)
          (noTupleStructList_mem ss hs s2 hmem) v2 hv2 p2 q2 h2 hq2
      cases v <;> simp [wf] at hv
      case seq vs =>
        rw [show encode (.struct ss) (.seq vs) = encodeFields ss vs from by
          simp [encode]] at h
        simp only [decode]
        rcases hd : decodeFields ss p with ⟨r1, rest1⟩
        have hr1 : r1 = .error .DeserializeUnexpectedEnd := by
          have h5 := decodeFields_prefix ss hs IH2m vs hv p q h hq
          rw [hd] at h5
          exact h5
        subst hr1
        simp [hd]
    | enum vars =>
      simp [noTupleStruct] at hs
      cases v <;> simp [wf] at hv
      case enum ord pv =>
        obtain ⟨hord, hdite⟩ := hv
        by_cases hlt : ord < vars.length
        · rw [dif_pos hlt] at hdite
          rw [show encode (.enum vars) (.enum ord pv)
              = varintEncode ord ++ encode (vars.get ⟨ord, hlt⟩) pv from by
            simp [encode, dif_pos hlt]] at h
          rw [show vars.get ⟨ord, hlt⟩ = vars[ord] from rfl] at h
          have hns : noTupleStruct vars[ord] = true :=
            noTupleStructList_mem vars hs vars[ord] (List.getElem_mem hlt)
          have hsz : sizeOf vars[ord] < n := by
            have h1 := List.sizeOf_lt_of_mem (List.getElem_mem hlt)
            have h2 : sizeOf (Shape.enum vars) = 1 + sizeOf vars := by simp
            omega
          have IHp : ∀ p2 q2, encode vars[ord] pv = p2 ++ q2 → q2 ≠ [] →
              (decode vars[ord] p2).1 = .error .DeserializeUnexpectedEnd :=
            fun p2 q2 h2 hq2 =>
              ih (sizeOf vars[ord]) hsz vars[ord] (Nat.le_refl _) hns pv
                hdite p2 q2 h2 hq2
          have hguard : ¬(4294967295 < ord) := by omega
          rcases List.append_eq_append_iff.mp h with ⟨a2, ha1, ha2⟩ | ⟨c2, hc1, hc2⟩
          · rw [ha1]
            simp only [decode, variant_seed]
            rw [try_take_varint_encode ord (by omega) a2]
            simp only [hguard, if_false]
            rw [Nat.mod_eq_of_lt (by omega : ord < 4294967296)]
            rw [dif_pos hlt]
            rw [show vars.get ⟨ord, hlt⟩ = vars[ord] from rfl]
            rcases hd : decode vars[ord] a2 with ⟨r1, rest1⟩
            have hr1 : r1 = .error .DeserializeUnexpectedEnd := by
              have h5 := IHp a2 q ha2 hq
              rw [hd] at h5
              exact h5
            subst hr1
            simp [hd]
          · cases c2 with
            | nil =>
              have hp : p = varintEncode ord := by simpa using hc1.symm
              have hq2 : encode vars[ord] pv = [] ++ q := by
                simpa using hc2.symm
              rw [hp]
              simp only [decode, variant_seed]
              have hv1 := try_take_varint_encode ord (by omega) []
              rw [List.append_nil] at hv1
              rw [hv1]
              simp only [hguard, if_false]
              rw [Nat.mod_eq_of_lt (by omega : ord < 4294967296)]
              rw [dif_pos hlt]
              rw [show vars.get ⟨ord, hlt⟩ = vars[ord] from rfl]
              rcases hd : decode vars[ord] [] with ⟨r1, rest1⟩
              have hr1 : r1 = .error .DeserializeUnexpectedEnd := by
                have h5 := IHp [] q hq2 hq
                rw [hd] at h5
                exact h5
              subst hr1
              simp [hd]
            | cons x c3 =>
              have hvp := try_take_varint_prefix ord (by omega) p (x :: c3)
                hc1 (by simp)
              simp only [decode, variant_seed]
              rw [hvp]
        · rw [dif_neg hlt] at hdite
          exact absurd hdite (by simp)

theorem decode_prefix (s : Shape) (hs : noTupleStruct s = true) (v : Value)
    (hv : wf s v = true) (p q : List Nat) (h : encode s v = p ++ q)
    (hq : q ≠ []) :
    (decode s p).1 = .error .DeserializeUnexpectedEnd :=
  decode_prefix_aux (sizeOf s) s (Nat.le_refl _) hs v hv p q h hq

/-! Behaviour of the sequence access object (`SeqAccess`): the first `N`
requests produce elements, every later request answers `None`, and only
the requested elements are consumed. -/

theorem seqRequests_drained (dec : List Nat → Except Error Value × List Nat) :
    ∀ k input, seqRequests dec k (0, input)
      = (.ok (List.replicate k Option.none), (0, input)) := by
  intro k
  induction k with
  | zero =>
    intro input
    simp [seqRequests]
  | succ k ihk =>
    intro input
    simp [seqRequests, next_element_seed, ihk input, List.replicate_succ]

theorem seqRequests_upto (dec : List Nat → Except Error Value × List Nat) :
    ∀ j N input vs rest, j ≤ N →
      decodeMany dec j input = (.ok vs, rest) →
      seqRequests dec j (N, input)
        = (.ok (vs.map Option.some), (N - j, rest)) := by
  intro j
  induction j with
  | zero =>
    intro N input vs rest _ h
    simp [decodeMany] at h
    obtain ⟨h1, h2⟩ := h
    subst h1
    subst h2
    simp [seqRequests]
  | succ j ihj =>
    intro N input vs rest hj h
    cases N with
    | zero => omega
    | succ N2 =>
      rcases h1 : dec input with ⟨r1, rest1⟩
      cases r1 with
      | error e => simp [decodeMany, h1] at h
      | ok v =>
        rcases h2 : decodeMany dec j rest1 with ⟨r2, rest2⟩
        cases r2 with
        | error e => simp [decodeMany, h1, h2] at h
        | ok vs2 =>
          simp [decodeMany, h1, h2] at h
          obtain ⟨h3, h4⟩ := h
          subst h3
          subst h4
          simp only [seqRequests, next_element_seed, h1]
          rw [ihj N2 rest1 vs2 rest2 (by omega) h2]
          simp

theorem seqRequests_full (dec : List Nat → Except Error Value × List Nat)
    (N k : Nat) :
    ∀ input vs rest, decodeMany dec N input = (.ok vs, rest) →
      seqRequests dec (N + k) (N, input)
        = (.ok (vs.map Option.some ++ List.replicate k Option.none),
           (0, rest)) := by
  induction N with
  | zero =>
    intro input vs rest h
    simp [decodeMany] at h
    obtain ⟨h1, h2⟩ := h
    subst h1
    subst h2
    simpa using seqRequests_drained dec k input
  | succ N ihN =>
    intro input vs rest h
    rcases h1 : dec input with ⟨r1, rest1⟩
    cases r1 with
    | error e => simp [decodeMany, h1] at h
    | ok v =>
      rcases h2 : decodeMany dec N rest1 with ⟨r2, rest2⟩
      cases r2 with
      | error e => simp [decodeMany, h1, h2] at h
      | ok vs2 =>
        simp [decodeMany, h1, h2] at h
        obtain ⟨h3, h4⟩ := h
        subst h3
        subst h4
        rw [show N + 1 + k = (N + k) + 1 from by omega]
        simp only [seqRequests, next_element_seed, h1]
        rw [ihN rest1 vs2 rest2 h2]
        simp

theorem next_element_seed_suffix (dec : List Nat → Except Error Value × List Nat)
    (hdec : ∀ b, SuffixOf (dec b).2 b) (st : Nat × List Nat) :
    SuffixOf ((next_element_seed dec st).2).2 st.2 := by
  rcases st with ⟨len, input⟩
  cases len with
  | zero =>
    simp [next_element_seed]
    exact suffixOf_refl input
  | succ len =>
    rcases h1 : dec input with ⟨r1, rest1⟩
    have hs1 : SuffixOf rest1 input := by
      have := hdec input
      rwa [h1] at this
    cases r1 <;> simp [next_element_seed, h1] <;> exact hs1

/-! The claims. -/

/-- Claim C1: decoding of tuples, tuple structs and structs is supposed to
consume only the concatenation of the fields' encodings in declared order,
with the arity taken from the statically requested shape and no element
count read from the input.  The code satisfies this for tuples and structs,
but `deserialize_tuple_struct` (src/de.rs lines 397-407) delegates to
`deserialize_seq` and therefore reads a varint element count from the
stream: on the two-byte count-free encoding `[2, 5]` of a two-field u8
tuple struct holding the fields (2, 5), it misreads the byte 2 as a count
and fails with `DeserializeUnexpectedEnd`, while the same bytes decode
correctly as a tuple or a struct of the same field shapes. -/
theorem claim_C1_tuple_struct_reads_count :
    decode (Shape.tuple [Shape.u8, Shape.u8]) [2, 5]
      = (.ok (Value.seq [Value.uint 2, Value.uint 5]), []) ∧
    decode (Shape.struct [Shape.u8, Shape.u8]) [2, 5]
      = (.ok (Value.seq [Value.uint 2, Value.uint 5]), []) ∧
    encode (Shape.tupleStruct [Shape.u8, Shape.u8])
      (Value.seq [Value.uint 2, Value.uint 5]) = [2, 5] ∧
    decode (Shape.tupleStruct [Shape.u8, Shape.u8]) [2, 5]
      = (.error .DeserializeUnexpectedEnd, []) := by
  refine ⟨?_, ?_, ?_, ?_⟩ <;>
    simp [decode, decodeFields, decodeFieldsLimited, encode, encodeFields,
      leBytes, try_take_n, try_take_varint, try_take_varint_go,
      varint_usize_max, varintOut, fromLE, byte0, and127, and128]

/-- Claim C2, counterexample: with a tuple-struct shape the claim fails.
The spec encoding of the two-field u8 tuple struct holding (2, 5) is
`[2, 5]`; with one extra byte 9 appended, `take_from_bytes` does not return
the value with remainder `[9]` — the decoder misreads 2 as an element
count, consumes 5 and 9 as the two fields, and returns the wrong value
(5, 9) with an empty remainder; `from_bytes` likewise returns the wrong
value. -/
theorem claim_C2_counterexample :
    wf (Shape.tupleStruct [Shape.u8, Shape.u8])
      (Value.seq [Value.uint 2, Value.uint 5]) = true ∧
    encode (Shape.tupleStruct [Shape.u8, Shape.u8])
      (Value.seq [Value.uint 2, Value.uint 5]) = [2, 5] ∧
    take_from_bytes (Shape.tupleStruct [Shape.u8, Shape.u8]) ([2, 5] ++ [9])
      = .ok (Value.seq [Value.uint 5, Value.uint 9], []) ∧
    take_from_bytes (Shape.tupleStruct [Shape.u8, Shape.u8]) ([2, 5] ++ [9])
      ≠ .ok (Value.seq [Value.uint 2, Value.uint 5], [9]) ∧
    from_bytes (Shape.tupleStruct [Shape.u8, Shape.u8]) ([2, 5] ++ [9])
      ≠ .ok (Value.seq [Value.uint 2, Value.uint 5]) := by
  refine ⟨?_, ?_, ?_, ?_, ?_⟩ <;>
    simp [wf, wfFields, take_from_bytes, from_bytes, decode,
      decodeFieldsLimited, encode, encodeFields, leBytes, try_take_n,
      try_take_varint, try_take_varint_go, varint_usize_max, varintOut,
      fromLE, byte0, and127, and128]

/-- Claim C2 (amended: restricted to shapes containing no tuple-struct,
whose decoding misreads a field byte as an element count — see C1): for
every well-formed value, a buffer holding the value's encoding followed by
arbitrary extra bytes decodes via `take_from_bytes` to the value together
with a remainder exactly equal to the extra bytes, and via `from_bytes` to
the same value with the trailing bytes silently ignored. -/
theorem claim_C2_remainder (s : Shape) (v : Value) (extra : List Nat)
    (hs : noTupleStruct s = true) (hv : wf s v = true) :
    take_from_bytes s (encode s v ++ extra) = .ok (v, extra) ∧
    from_bytes s (encode s v ++ extra) = .ok v := by
  constructor
  · rw [take_from_bytes, decode_encode s hs v hv extra]
  · rw [from_bytes, decode_encode s hs v hv extra]

/-- Witness for C2's amended theorem at the struct of a u16 and a string
field, value (0xABCD, "hi"), with one trailing byte 7. -/
theorem claim_C2_remainder_witness :
    take_from_bytes (Shape.struct [Shape.u16, Shape.str])
        (encode (Shape.struct [Shape.u16, Shape.str])
          (Value.seq [Value.uint 43981, Value.str [104, 105]]) ++ [7])
      = .ok (Value.seq [Value.uint 43981, Value.str [104, 105]], [7]) ∧
    from_bytes (Shape.struct [Shape.u16, Shape.str])
        (encode (Shape.struct [Shape.u16, Shape.str])
          (Value.seq [Value.uint 43981, Value.str [104, 105]]) ++ [7])
      = .ok (Value.seq [Value.uint 43981, Value.str [104, 105]]) :=
  claim_C2_remainder (Shape.struct [Shape.u16, Shape.str])
    (Value.seq [Value.uint 43981, Value.str [104, 105]]) [7]
    (by simp [noTupleStruct, noTupleStructList])
    (by simp +decide [wf, wfFields])

/-- Claim C3, counterexample: for a tuple-struct shape a strict prefix of a
valid encoding can fail with a framework `invalid_length` error
(`SerdeDeCustom`) instead of `DeserializeUnexpectedEnd`: the encoding of
the tuple struct of a u16 and a u8 holding (256, 7) is `[0, 1, 7]`, and on
the strict prefix `[0]` the decoder reads the 0 as an element count, the
derived visitor's first pull is answered `None`, and decode fails with the
framework error rather than `DeserializeUnexpectedEnd`. -/
theorem claim_C3_counterexample :
    wf (Shape.tupleStruct [Shape.u16, Shape.u8])
      (Value.seq [Value.uint 256, Value.uint 7]) = true ∧
    encode (Shape.tupleStruct [Shape.u16, Shape.u8])
      (Value.seq [Value.uint 256, Value.uint 7]) = [0] ++ [1, 7] ∧
    ([1, 7] : List Nat) ≠ [] ∧
    decode (Shape.tupleStruct [Shape.u16, Shape.u8]) [0]
      = (.error .SerdeDeCustom, []) ∧
    (decode (Shape.tupleStruct [Shape.u16, Shape.u8]) [0]).1
      ≠ .error .DeserializeUnexpectedEnd := by
  refine ⟨?_, ?_, by simp, ?_, ?_⟩ <;>
    simp [wf, wfFields, decode, decodeFieldsLimited, encode, encodeFields,
      leBytes, try_take_n, try_take_varint, try_take_varint_go,
      varint_usize_max, varintOut, fromLE, byte0, and127, and128]

/-- Claim C3 (amended: the strict-prefix property restricted to shapes
containing no tuple-struct, see the counterexample): every fixed-size read
finding fewer remaining bytes than required fails with
`DeserializeUnexpectedEnd`, and decoding any strict prefix of a valid
encoding of a well-formed value fails with `DeserializeUnexpectedEnd`. -/
theorem claim_C3_truncation :
    (∀ ct input, input.length < ct →
      try_take_n ct input = (.error .DeserializeUnexpectedEnd, input)) ∧
    (∀ s v p q, noTupleStruct s = true → wf s v = true →
      encode s v = p ++ q → q ≠ [] →
      (decode s p).1 = .error .DeserializeUnexpectedEnd) :=
  ⟨try_take_n_short,
   fun s v p q hs hv h hq => decode_prefix s hs v hv p q h hq⟩

/-- Witness for C3's amended theorem: a four-byte read on a two-byte input,
and the one-byte strict prefix `[0]` of the u16 encoding `[0, 1]`. -/
theorem claim_C3_truncation_witness :
    try_take_n 4 [1, 2] = (.error .DeserializeUnexpectedEnd, [1, 2]) ∧
    (decode Shape.u16 [0]).1 = .error .DeserializeUnexpectedEnd :=
  ⟨claim_C3_truncation.1 4 [1, 2] (by decide),
   claim_C3_truncation.2 Shape.u16 (Value.uint 256) [0] [1]
     (by simp [noTupleStruct]) (by simp [wf])
     (by simp [encode, leBytes]) (by simp)⟩

/-- Claim C4: varint decoding fails with `DeserializeBadVarint` when every
byte within the maximum varint width has the continuation bit set, fails
with `DeserializeUnexpectedEnd` when the cursor is exhausted before a
terminator, and on success consumes exactly the bytes up to and including
the first byte with the high bit clear, reassembling the value from the
7-bit groups least-significant first (into the 64-bit accumulator). -/
theorem claim_C4_varint (input : List Nat) :
    ((∀ i, i < varint_usize_max →
        ∃ b, input.get? i = Option.some b ∧ b &&& 128 ≠ 0) →
      try_take_varint input = (.error .DeserializeBadVarint, input)) ∧
    (input.length < varint_usize_max → (∀ b ∈ input, b &&& 128 ≠ 0) →
      try_take_varint input = (.error .DeserializeUnexpectedEnd, input)) ∧
    (∀ k b, input.get? k = Option.some b → b &&& 128 = 0 →
      k < varint_usize_max →
      (∀ j c, j < k → input.get? j = Option.some c → c &&& 128 ≠ 0) →
      try_take_varint input
        = (.ok (varintSum (input.take (k + 1)) % 2 ^ 64),
           input.drop (k + 1))) := by
  refine ⟨?_, ?_, ?_⟩
  · intro hall
    obtain ⟨b9, hb9, _⟩ := hall 9 (by simp [varint_usize_max])
    have h9 : 9 < input.length := (List.get?_eq_some.mp hb9).1
    rw [try_take_varint]
    apply go_overflow input varint_usize_max 0
    · intro j c _ hj hg
      obtain ⟨b, hb, hbh⟩ := hall j (by
        have h10 : varint_usize_max = 10 := rfl
        omega)
      rw [hg] at hb
      injection hb with hbe
      rw [hbe]
      exact hbh
    · have h10 : varint_usize_max = 10 := rfl
      omega
  · intro hlen hall
    rw [try_take_varint]
    exact go_exhaust input hall varint_usize_max 0
      (by have h10 : varint_usize_max = 10 := rfl; omega) (by omega)
  · intro k b hget hb hk hprev
    rw [try_take_varint]
    rw [go_found input k b hget hb hprev varint_usize_max 0 (by omega)
      (by omega)]
    rw [varintOut_eq]

/-- Witness for C4 at concrete inputs: ten continuation bytes give
`DeserializeBadVarint`, a short all-continuation input gives
`DeserializeUnexpectedEnd`, and `[0xAC, 0x02]` decodes to 300 leaving the
trailing byte. -/
theorem claim_C4_varint_witness :
    try_take_varint [128, 128, 128, 128, 128, 128, 128, 128, 128, 128]
      = (.error .DeserializeBadVarint,
         [128, 128, 128, 128, 128, 128, 128, 128, 128, 128]) ∧
    try_take_varint [128, 129]
      = (.error .DeserializeUnexpectedEnd, [128, 129]) ∧
    try_take_varint [172, 2, 9]
      = (.ok (varintSum ([172, 2, 9].take 2) % 2 ^ 64), [172, 2, 9].drop 2) := by
  refine ⟨?_, ?_, ?_⟩
  · refine (claim_C4_varint _).1 ?_
    intro i hi
    have h10 : varint_usize_max = 10 := rfl
    rw [h10] at hi
    interval_cases i <;> exact ⟨128, by decide, by decide⟩
  · exact (claim_C4_varint _).2.1 (by decide) (by decide)
  · refine (claim_C4_varint _).2.2 1 2 (by decide) (by decide) (by decide) ?_
    intro j c hj hg
    have hj0 : j = 0 := by omega
    subst hj0
    simp at hg
    subst hg
    decide

/-- Claim C5: varint decode does not enforce canonical form: for every
value below 2^64, the non-minimal encoding obtained by appending
zero-valued high-order 7-bit groups (continuation bit set on the former
final byte) decodes, as long as it stays within the maximum varint byte
count, to the same value as the minimal encoding. -/
theorem claim_C5_nonminimal (n pad : Nat) (rest : List Nat)
    (hn : n < 2 ^ 64)
    (hlen : (varintEncode n).length + pad ≤ varint_usize_max) :
    try_take_varint (padVarint n pad ++ rest) = (.ok n, rest) ∧
    try_take_varint (varintEncode n ++ rest) = (.ok n, rest) :=
  ⟨try_take_varint_pad n pad hn hlen rest, try_take_varint_encode n hn rest⟩

/-- Witness for C5: the value 1 padded with two zero groups, `[0x81, 0x80,
0x00]`, decodes to 1 exactly like the minimal `[0x01]`. -/
theorem claim_C5_nonminimal_witness :
    try_take_varint (padVarint 1 2 ++ [5]) = (.ok 1, [5]) ∧
    try_take_varint (varintEncode 1 ++ [5]) = (.ok 1, [5]) :=
  claim_C5_nonminimal 1 2 [5] (by norm_num)
    (by simp [varintEncode, varint_usize_max])

/-- Claim C6: enum decoding reads the variant ordinal as a varint; an
ordinal above `0xFFFF_FFFF` fails with `DeserializeBadEnum`, and otherwise
the ordinal is passed unchanged (the u32 cast is the identity under the
guard) to select the variant payload shape, which is decoded next. -/
theorem claim_C6_enum (vars : List Shape) (input rest : List Nat) (n : Nat)
    (h : try_take_varint input = (.ok n, rest)) :
    (4294967295 < n →
      variant_seed input = (.error .DeserializeBadEnum, rest) ∧
      decode (Shape.enum vars) input = (.error .DeserializeBadEnum, rest)) ∧
    (n ≤ 4294967295 →
      variant_seed input = (.ok n, rest) ∧
      ∀ hlt : n < vars.length,
        (∀ v r2, decode vars[n] rest = (.ok v, r2) →
          decode (Shape.enum vars) input = (.ok (Value.enum n v), r2)) ∧
        (∀ e r2, decode vars[n] rest = (.error e, r2) →
          decode (Shape.enum vars) input = (.error e, r2))) := by
  have hvs_gt : 4294967295 < n →
      variant_seed input = (.error .DeserializeBadEnum, rest) := by
    intro hgt
    simp only [variant_seed]
    rw [h]
    simp [hgt]
  have hvs_le : n ≤ 4294967295 → variant_seed input = (.ok n, rest) := by
    intro hle
    simp only [variant_seed]
    rw [h]
    have hng : ¬(4294967295 < n) := by omega
    simp [hng, Nat.mod_eq_of_lt (by omega : n < 4294967296)]
  refine ⟨fun hgt => ⟨hvs_gt hgt, ?_⟩,
    fun hle => ⟨hvs_le hle, fun hlt => ⟨?_, ?_⟩⟩⟩
  · simp only [decode]
    rw [hvs_gt hgt]
  · intro v r2 hdec
    simp only [decode]
    rw [hvs_le hle]
    simp [dif_pos hlt, hdec]
  · intro e r2 hdec
    simp only [decode]
    rw [hvs_le hle]
    simp [dif_pos hlt, hdec]

/-- Witness for C6: the ordinal 1 selects the second variant (a u16
payload) of a two-variant enum, and the five-byte varint `0x1FFFFFFFF`
fails with `DeserializeBadEnum`. -/
theorem claim_C6_enum_witness :
    decode (Shape.enum [Shape.u8, Shape.u16]) [1, 5, 0]
      = (.ok (Value.enum 1 (Value.uint 5)), []) ∧
    variant_seed [255, 255, 255, 255, 31]
      = (.error .DeserializeBadEnum, []) := by
  constructor
  · have h := (claim_C6_enum [Shape.u8, Shape.u16] [1, 5, 0] [5, 0] 1
      (by simp [try_take_varint, try_take_varint_go, varint_usize_max,
        varintOut, and127, and128])).2 (by omega)
    exact (h.2 (by decide)).1 (Value.uint 5) []
      (by simp [decode, try_take_n, fromLE])
  · have h := (claim_C6_enum [] [255, 255, 255, 255, 31] [] 8589934591
      (by simp [try_take_varint, try_take_varint_go, varint_usize_max,
        varintOut, and127, and128])).1 (by norm_num)
    exact h.1

/-- Claim C7: sequence decoding first reads a varint element count `N` and
then yields elements on demand: the access object answers each of the
first `N` requests with a decoded element and every later request with
`None`; if only `j ≤ N` elements are requested, the cursor is left past
exactly the `j` consumed elements and the count still owed is `N - j`. -/
theorem claim_C7_seq (dec : List Nat → Except Error Value × List Nat)
    (N j k : Nat) (input rest : List Nat) (vs : List Value)
    (hj : j ≤ N) (h : decodeMany dec j input = (.ok vs, rest)) :
    seqRequests dec j (N, input)
      = (.ok (vs.map Option.some), (N - j, rest)) ∧
    (j = N → seqRequests dec (N + k) (N, input)
      = (.ok (vs.map Option.some ++ List.replicate k Option.none),
         (0, rest))) ∧
    (∀ s inp n r vs2 r2, try_take_varint inp = (.ok n, r) →
      decodeMany (fun b => decode s b) n r = (.ok vs2, r2) →
      decode (Shape.seq s) inp = (.ok (Value.seq vs2), r2)) ∧
    (∀ st, next_element_seed dec (0, st) = (.ok Option.none, (0, st))) := by
  refine ⟨seqRequests_upto dec j N input vs rest hj h, ?_, ?_,
    fun st => rfl⟩
  · intro hjN
    subst hjN
    exact seqRequests_full dec j k input vs rest h
  · intro s inp n r vs2 r2 h1 h2
    simp only [decode]
    rw [h1]
    simp [h2]

/-- Witness for C7: over the input `[1, 2, 3]` with declared count 3, two
u8 element requests yield the bytes 1 and 2 and leave the cursor at `[3]`
with one element still owed. -/
theorem claim_C7_seq_witness :
    seqRequests (fun b => decode Shape.u8 b) 2 (3, [1, 2, 3])
      = (.ok ([Value.uint 1, Value.uint 2].map Option.some), (3 - 2, [3])) :=
  (claim_C7_seq (fun b => decode Shape.u8 b) 3 2 0 [1, 2, 3] [3]
    [Value.uint 1, Value.uint 2] (by omega)
    (by simp [decodeMany, decode, try_take_n, fromLE])).1

/-- Claim C8: string decoding reads a varint byte length and then exactly
that many payload bytes; insufficient bytes fail with
`DeserializeUnexpectedEnd`, invalid UTF-8 fails with `DeserializeBadUtf8`,
and on success the returned string is exactly the payload byte region of
the input (the borrowed, zero-copy view). -/
theorem claim_C8_str (input rest : List Nat) (n : Nat)
    (h : try_take_varint input = (.ok n, rest)) :
    (rest.length < n →
      decode Shape.str input = (.error .DeserializeUnexpectedEnd, rest)) ∧
    (n ≤ rest.length → validUtf8 (rest.take n) = false →
      decode Shape.str input = (.error .DeserializeBadUtf8, rest.drop n)) ∧
    (n ≤ rest.length → validUtf8 (rest.take n) = true →
      decode Shape.str input
        = (.ok (Value.str (rest.take n)), rest.drop n)) := by
  refine ⟨?_, ?_, ?_⟩
  · intro hlt
    simp only [decode]
    rw [h]
    simp [try_take_n_short n rest hlt]
  · intro hle hbad
    simp only [decode]
    rw [h]
    simp [show try_take_n n rest = (.ok (rest.take n), rest.drop n) from by
      rw [try_take_n, if_pos hle], hbad]
  · intro hle hgood
    simp only [decode]
    rw [h]
    simp [show try_take_n n rest = (.ok (rest.take n), rest.drop n) from by
      rw [try_take_n, if_pos hle], hgood]

/-- Witness for C8: `[2, 'h', 'i', 7]` decodes to the borrowed two-byte
string with remainder `[7]`; `[1, 0xFF]` fails with `DeserializeBadUtf8`;
`[5, 1]` fails with `DeserializeUnexpectedEnd`. -/
theorem claim_C8_str_witness :
    decode Shape.str [2, 104, 105, 7]
      = (.ok (Value.str ([104, 105, 7].take 2)), [104, 105, 7].drop 2) ∧
    decode Shape.str [1, 255]
      = (.error .DeserializeBadUtf8, [255].drop 1) ∧
    decode Shape.str [5, 1] = (.error .DeserializeUnexpectedEnd, [1]) := by
  refine ⟨?_, ?_, ?_⟩
  · exact (claim_C8_str [2, 104, 105, 7] [104, 105, 7] 2
      (by simp [try_take_varint, try_take_varint_go, varint_usize_max,
        varintOut, and127, and128])).2.2 (by decide) (by decide)
  · exact (claim_C8_str [1, 255] [255] 1
      (by simp [try_take_varint, try_take_varint_go, varint_usize_max,
        varintOut, and127, and128])).2.1 (by decide) (by decide)
  · exact (claim_C8_str [5, 1] [1] 5
      (by simp [try_take_varint, try_take_varint_go, varint_usize_max,
        varintOut, and127, and128])).1 (by decide)

/-- Claim C9: every deserializer operation, on success or failure, leaves
an unread input that is a suffix of the unread input before the call — the
cursor only advances monotonically and never backtracks. -/
theorem claim_C9_monotone :
    (∀ ct input, SuffixOf (try_take_n ct input).2 input) ∧
    (∀ input, SuffixOf (try_take_varint input).2 input) ∧
    (∀ input, SuffixOf (variant_seed input).2 input) ∧
    (∀ s input, SuffixOf (decode s input).2 input) ∧
    (∀ input, SuffixOf (deserialize_any input).2 input) ∧
    (∀ input, SuffixOf (deserialize_identifier input).2 input) ∧
    (∀ input, SuffixOf (deserialize_ignored_any input).2 input) ∧
    (∀ dec st, (∀ b, SuffixOf (dec b).2 b) →
      SuffixOf ((next_element_seed dec st).2).2 st.2) :=
  ⟨try_take_n_suffix, try_take_varint_suffix, variant_seed_suffix,
   decode_suffix, fun input => suffixOf_refl input,
   fun input => suffixOf_refl input, fun input => suffixOf_refl input,
   fun dec st hdec => next_element_seed_suffix dec hdec st⟩

/-- Witness for C9's hypothesis-bearing conjunct, instantiated with the u8
element decoder and a concrete access state. -/
theorem claim_C9_monotone_witness :
    SuffixOf
      ((next_element_seed (fun b => decode Shape.u8 b) (2, [9, 9])).2).2
      [9, 9] :=
  claim_C9_monotone.2.2.2.2.2.2.2 (fun b => decode Shape.u8 b) (2, [9, 9])
    (fun b => claim_C9_monotone.2.2.2.1 Shape.u8 b)

/-- Claim C10: the self-describing decode entry points — `deserialize_any`,
`deserialize_identifier` and `deserialize_ignored_any` — fail immediately
with `Error::WontImplement` (the spec's NotSupported condition) on every
input, consuming no bytes. -/
theorem claim_C10_not_supported (input : List Nat) :
    deserialize_any input = (.error .WontImplement, input) ∧
    deserialize_identifier input = (.error .WontImplement, input) ∧
    deserialize_ignored_any input = (.error .WontImplement, input) :=
  ⟨rfl, rfl, rfl⟩

end Postcard
